import Mathlib

/-!
# Verification of the NYS Law Lookup core (nys_law_cli.py)

Shallow embedding of the algorithmic core of `nys_law_cli.py`:

* `marker_indent` / `markerLevel` — enumeration-marker classification
  (source lines 148–164);
* `format_statute_text` — the statute text segmenter built on
  `re.sub` with the marker pattern (source lines 183–201);
* `apply_marker_indents` — the per-line re-indentation pass
  (source lines 167–180);
* `walk_documents` — the document tree flattener (source lines 82–102).

Strings are modelled as `List Char` internally, with `String` wrappers at
the boundary.  Python's regex character classes are modelled at their
ASCII meaning (`\d` = `0`–`9`, `\w` = ASCII alphanumerics and `_`,
`\s` = space, tab, newline, carriage return, vertical tab, form feed),
which is exact on the ASCII inputs the program processes.
-/

/-! ## ASCII character classes (Python regex classes, ASCII fragment) -/

/-- Python regex `\d` on ASCII: the characters `0`–`9`. -/
def isDigitChar (c : Char) : Bool := decide (48 ≤ c.toNat ∧ c.toNat ≤ 57)

/-- ASCII uppercase letter `A`–`Z` (the regex class `[A-Z]`). -/
def isUpperChar (c : Char) : Bool := decide (65 ≤ c.toNat ∧ c.toNat ≤ 90)

/-- ASCII lowercase letter `a`–`z` (the regex class `[a-z]`). -/
def isLowerChar (c : Char) : Bool := decide (97 ≤ c.toNat ∧ c.toNat ≤ 122)

/-- The regex class `[A-Za-z]`. -/
def isAlphaChar (c : Char) : Bool := isUpperChar c || isLowerChar c

/-- Python regex `\w` on ASCII: letters, digits and underscore. -/
def isWordChar (c : Char) : Bool := isAlphaChar c || isDigitChar c || c == '_'

/-- Python regex `\s` on ASCII: space (32), tab (9), newline (10), carriage
return (13), vertical tab (11) and form feed (12).  Python `str.strip()`
strips the same set on ASCII text. -/
def isSpaceChar (c : Char) : Bool :=
  decide (c.toNat = 32 ∨ c.toNat = 9 ∨ c.toNat = 10 ∨ c.toNat = 13 ∨
    c.toNat = 11 ∨ c.toNat = 12)

/-- ASCII lowercasing, as applied by `re.IGNORECASE` comparisons. -/
def lowerAsciiChar (c : Char) : Char :=
  if 65 ≤ c.toNat && c.toNat ≤ 90 then Char.ofNat (c.toNat + 32) else c

/-! ## Python string helpers -/

/-- Remove the longest suffix whose characters all satisfy `p`
(`str.rstrip` with the corresponding set). -/
def rtrimWhile (p : Char → Bool) (cs : List Char) : List Char :=
  (cs.reverse.dropWhile p).reverse

/-- Python `str.strip()` (no argument): strip whitespace from both ends. -/
def pyStripChars (cs : List Char) : List Char :=
  rtrimWhile isSpaceChar (cs.dropWhile isSpaceChar)

/-- Python `str.strip(set)`: strip characters of `set` from both ends. -/
def stripSetBoth (set : List Char) (cs : List Char) : List Char :=
  rtrimWhile (· ∈ set) (cs.dropWhile (· ∈ set))

/-! ## Marker classification (`marker_indent`, source lines 148–164) -/

/-- `[ivxlcdm]` under `re.IGNORECASE`: the roman-numeral letters in either
case. -/
def romanChars : List Char :=
  ['i', 'v', 'x', 'l', 'c', 'd', 'm', 'I', 'V', 'X', 'L', 'C', 'D', 'M']

/-- Python `re.match(r"^pat$", s)`: the `$` anchor also matches just before
a single final newline. -/
def pyFullMatch (p : List Char → Bool) (cs : List Char) : Bool :=
  p cs || ((cs.getLast? == some '\n') && p cs.dropLast)

/-- `^\d+$` (body of the full-match test, without the `$`-newline rule). -/
def allDigits (cs : List Char) : Bool := !cs.isEmpty && cs.all isDigitChar

/-- `^\d+-[A-Za-z]+$` (body).  `\d+` is greedy and `-` is not a digit, so a
full match forces the digit run to be maximal. -/
def digitsDashLetters (cs : List Char) : Bool :=
  let ds := cs.takeWhile isDigitChar
  !ds.isEmpty &&
    (match cs.dropWhile isDigitChar with
     | '-' :: rest => !rest.isEmpty && rest.all isAlphaChar
     | _ => false)

/-- `^[ivxlcdm]+$` with `re.IGNORECASE` (body). -/
def allRoman (cs : List Char) : Bool := !cs.isEmpty && cs.all (· ∈ romanChars)

/-- `^[A-Z]+$` (body). -/
def allUpper (cs : List Char) : Bool := !cs.isEmpty && cs.all isUpperChar

/-- `^[a-z]+$` (body). -/
def allLower (cs : List Char) : Bool := !cs.isEmpty && cs.all isLowerChar

/-- Nesting level assigned by `marker_indent` before the indent string is
built: the cascade of `re.match` tests from source lines 149–163.
`clean = raw.strip("()").rstrip(".")` strips every leading or trailing
parenthesis (in any order) and then every trailing period. -/
def markerLevel (marker : List Char) : Nat :=
  let raw := pyStripChars marker
  let hasParen := (raw.headD ' ' == '(') && (raw.getLast? == some ')')
  let clean := rtrimWhile (· == '.') (stripSetBoth ['(', ')'] raw)
  if pyFullMatch digitsDashLetters clean then 0
  else if pyFullMatch allDigits clean then (if hasParen then 3 else 0)
  else if pyFullMatch allRoman clean then 2
  else if pyFullMatch allUpper clean then (if hasParen then 4 else 1)
  else if pyFullMatch allLower clean then 1
  else 0

/-- `marker_indent`: two spaces per nesting level (`"  " * level`). -/
def marker_indent (marker : List Char) : List Char :=
  List.replicate (2 * markerLevel marker) ' '

/-- `markerLevel` on a `String` marker. -/
def markerLevelS (marker : String) : Nat := markerLevel marker.data

/-! ## Generic list lemmas -/

theorem dropWhile_eq_self_of (p : Char → Bool) (l : List Char)
    (h : ∀ c ∈ l, p c = false) : l.dropWhile p = l := by
  cases l with
  | nil => rfl
  | cons a t => simp [List.dropWhile_cons, h a (by simp)]

theorem rtrimWhile_eq_self_of (p : Char → Bool) (l : List Char)
    (h : ∀ c ∈ l, p c = false) : rtrimWhile p l = l := by
  unfold rtrimWhile
  rw [dropWhile_eq_self_of p l.reverse
    (fun c hc => h c (List.mem_reverse.mp hc)), List.reverse_reverse]

theorem rtrimWhile_append_singleton (p : Char → Bool) (l : List Char) (a : Char) :
    rtrimWhile p (l ++ [a]) = if p a then rtrimWhile p l else l ++ [a] := by
  unfold rtrimWhile
  rw [List.reverse_append]
  simp only [List.reverse_cons, List.reverse_nil, List.nil_append,
    List.singleton_append, List.dropWhile_cons]
  split
  · rfl
  · simp

theorem pyFullMatch_eq_of_no_newline (p : List Char → Bool) (cs : List Char)
    (h : ∀ c ∈ cs, c ≠ '\n') : pyFullMatch p cs = p cs := by
  unfold pyFullMatch
  cases hl : cs.getLast? with
  | none => simp
  | some c =>
    have hc : c ∈ cs := List.mem_of_getLast?_eq_some hl
    simp [h c hc]

theorem pyStripChars_eq_self_of (l : List Char)
    (h : ∀ c ∈ l, isSpaceChar c = false) : pyStripChars l = l := by
  unfold pyStripChars
  rw [dropWhile_eq_self_of _ _ h, rtrimWhile_eq_self_of _ _ h]

/-- Evaluation of `raw.strip("()").rstrip(".")` on a string containing no
parenthesis and no period. -/
theorem clean_of_plain (l : List Char)
    (hpar : ∀ c ∈ l, decide (c ∈ (['(', ')'] : List Char)) = false)
    (hdot : ∀ c ∈ l, (c == '.') = false) :
    rtrimWhile (· == '.') (stripSetBoth ['(', ')'] l) = l := by
  unfold stripSetBoth
  rw [dropWhile_eq_self_of _ _ hpar, rtrimWhile_eq_self_of _ _ hpar,
    rtrimWhile_eq_self_of _ _ hdot]

/-- Evaluation of `raw.strip("()").rstrip(".")` on `(l)` where `l` contains
no parenthesis and no period. -/
theorem clean_of_paren_wrap (l : List Char) (hne : l ≠ [])
    (hpar : ∀ c ∈ l, decide (c ∈ (['(', ')'] : List Char)) = false)
    (hdot : ∀ c ∈ l, (c == '.') = false) :
    rtrimWhile (· == '.') (stripSetBoth ['(', ')'] ('(' :: l ++ [')'])) = l := by
  obtain ⟨c0, t, rfl⟩ := List.exists_cons_of_ne_nil hne
  unfold stripSetBoth
  have h1 : List.dropWhile (fun c => decide (c ∈ (['(', ')'] : List Char)))
      ('(' :: (c0 :: t) ++ [')']) = (c0 :: t) ++ [')'] := by
    simp only [List.cons_append, List.dropWhile_cons]
    have h0 : decide ('(' ∈ (['(', ')'] : List Char)) = true := by decide
    rw [h0]
    simp only [if_true, List.dropWhile_cons, hpar c0 (by simp)]
    simp
  rw [h1, rtrimWhile_append_singleton]
  have h2 : decide (')' ∈ (['(', ')'] : List Char)) = true := by decide
  rw [h2]
  simp only [if_true]
  rw [rtrimWhile_eq_self_of _ _ hpar, rtrimWhile_eq_self_of _ _ hdot]

/-- Evaluation of `raw.strip("()").rstrip(".")` on `l)` where `l` contains
no parenthesis and no period. -/
theorem clean_of_close_append (l : List Char) (hne : l ≠ [])
    (hpar : ∀ c ∈ l, decide (c ∈ (['(', ')'] : List Char)) = false)
    (hdot : ∀ c ∈ l, (c == '.') = false) :
    rtrimWhile (· == '.') (stripSetBoth ['(', ')'] (l ++ [')'])) = l := by
  obtain ⟨c0, t, rfl⟩ := List.exists_cons_of_ne_nil hne
  unfold stripSetBoth
  have h1 : List.dropWhile (fun c => decide (c ∈ (['(', ')'] : List Char)))
      ((c0 :: t) ++ [')']) = (c0 :: t) ++ [')'] := by
    simp only [List.cons_append, List.dropWhile_cons, hpar c0 (by simp)]
    simp
  rw [h1, rtrimWhile_append_singleton]
  have h2 : decide (')' ∈ (['(', ')'] : List Char)) = true := by decide
  rw [h2]
  simp only [if_true]
  rw [rtrimWhile_eq_self_of _ _ hpar, rtrimWhile_eq_self_of _ _ hdot]

/-! ## Facts about the character classes -/

theorem roman_char_facts {c : Char} (h : c ∈ romanChars) :
    isDigitChar c = false ∧ isSpaceChar c = false ∧ isAlphaChar c = true ∧
      c ≠ '(' ∧ c ≠ ')' ∧ c ≠ '.' ∧ c ≠ '\n' := by
  simp only [romanChars, List.mem_cons, List.not_mem_nil, or_false] at h
  rcases h with rfl | rfl | rfl | rfl | rfl | rfl | rfl | rfl | rfl | rfl |
    rfl | rfl | rfl | rfl <;> exact ⟨by decide, by decide, by decide,
      by decide, by decide, by decide, by decide⟩

theorem lower_char_facts {c : Char} (h : isLowerChar c = true) :
    isDigitChar c = false ∧ isSpaceChar c = false ∧ isUpperChar c = false ∧
      c ≠ '(' ∧ c ≠ ')' ∧ c ≠ '.' ∧ c ≠ '\n' := by
  rw [isLowerChar, decide_eq_true_eq] at h
  refine ⟨?_, ?_, ?_, ?_, ?_, ?_, ?_⟩
  · rw [isDigitChar, decide_eq_false_iff_not]; omega
  · rw [isSpaceChar, decide_eq_false_iff_not]; omega
  · rw [isUpperChar, decide_eq_false_iff_not]; omega
  · intro hc; subst hc; exact absurd h (by decide)
  · intro hc; subst hc; exact absurd h (by decide)
  · intro hc; subst hc; exact absurd h (by decide)
  · intro hc; subst hc; exact absurd h (by decide)


/-- C1: a token of one or more letters drawn only from {i,v,x,l,c,d,m} in
any mix of case (i.e. from `romanChars`) is classified at level 2 both bare
and parenthesized — never level 1 — because the roman-numeral test precedes
the uppercase/lowercase letter tests. -/
theorem claim_roman_precedence (s : List Char) (hne : s ≠ [])
    (hs : ∀ c ∈ s, c ∈ romanChars) :
    markerLevel s = 2 ∧ markerLevel ('(' :: s ++ [')']) = 2 := by
  obtain ⟨c0, t, rfl⟩ := List.exists_cons_of_ne_nil hne
  have hc0 := roman_char_facts (hs c0 (by simp))
  have hnospace : ∀ c ∈ c0 :: t, isSpaceChar c = false :=
    fun c hc => (roman_char_facts (hs c hc)).2.1
  have hnonl : ∀ c ∈ c0 :: t, c ≠ '\n' :=
    fun c hc => (roman_char_facts (hs c hc)).2.2.2.2.2.2
  have hnoparen : ∀ c ∈ c0 :: t, decide (c ∈ (['(', ')'] : List Char)) = false := by
    intro c hc
    have h := roman_char_facts (hs c hc)
    rw [decide_eq_false_iff_not]
    simp [h.2.2.2.1, h.2.2.2.2.1]
  have hnodot : ∀ c ∈ c0 :: t, (c == '.') = false := by
    intro c hc
    simp [(roman_char_facts (hs c hc)).2.2.2.2.2.1]
  have hroman : allRoman (c0 :: t) = true := by
    unfold allRoman
    simp only [List.all_eq_true, decide_eq_true_eq, List.isEmpty_cons,
      Bool.not_false, Bool.true_and]
    exact hs
  have hdd : digitsDashLetters (c0 :: t) = false := by
    unfold digitsDashLetters
    simp [List.takeWhile_cons, hc0.1]
  have had : allDigits (c0 :: t) = false := by
    unfold allDigits
    simp [hc0.1]
  constructor
  · simp only [markerLevel]
    rw [pyStripChars_eq_self_of _ hnospace, clean_of_plain _ hnoparen hnodot,
      pyFullMatch_eq_of_no_newline _ _ hnonl, pyFullMatch_eq_of_no_newline _ _ hnonl,
      pyFullMatch_eq_of_no_newline _ _ hnonl]
    simp [hdd, had, hroman]
  · simp only [markerLevel]
    have hnospace2 : ∀ c ∈ '(' :: (c0 :: t) ++ [')'], isSpaceChar c = false := by
      intro c hc
      rcases List.mem_cons.mp hc with rfl | hc1
      · decide
      rcases List.mem_append.mp hc1 with hc2 | hc3
      · exact hnospace c hc2
      · rw [List.mem_singleton.mp hc3]; decide
    rw [pyStripChars_eq_self_of _ hnospace2,
      clean_of_paren_wrap _ (by simp) hnoparen hnodot,
      pyFullMatch_eq_of_no_newline _ _ hnonl, pyFullMatch_eq_of_no_newline _ _ hnonl,
      pyFullMatch_eq_of_no_newline _ _ hnonl]
    simp [hdd, had, hroman]

/-- C1 witness: the mixed-case roman token "iV", bare and parenthesized,
classifies at level 2. -/
theorem claim_roman_precedence_witness :
    markerLevel ['i', 'V'] = 2 ∧ markerLevel ['(', 'i', 'V', ')'] = 2 :=
  claim_roman_precedence ['i', 'V'] (by decide) (by decide)

/-- C4: the classifier's value table on the six reference inputs —
parenthesization raises digits to 3 and uppercase letters to 4 but leaves
lowercase letters at 1. -/
theorem claim_classify_table :
    markerLevelS "5" = 0 ∧ markerLevelS "(5)" = 3 ∧ markerLevelS "a" = 1 ∧
      markerLevelS "(a)" = 1 ∧ markerLevelS "A" = 1 ∧ markerLevelS "(A)" = 4 := by
  refine ⟨by decide, by decide, by decide, by decide, by decide, by decide⟩

/-- C7 counterexample: the claim predicts that classify keeps the unmatched
`)` of "a)" and falls back to level 0, but `raw.strip("()")` removes
parentheses from either end unconditionally, so the body is "a" and the
level is 1, not 0. -/
theorem claim_unmatched_paren_counterexample :
    markerLevelS "a)" = 1 ∧ markerLevelS "a)" ≠ 0 := by
  refine ⟨by decide, by decide⟩

/-- C7 amended: `strip("()")` removes every leading `(` and trailing `)`
regardless of `hasParens`, so a token of lowercase letters followed by a
single unmatched `)` has the `)` stripped and is classified by its letter
body: level 2 when the letters are all roman-numeral letters, otherwise
level 1 — never the level-0 fallback that the original claim stated. -/
theorem claim_unmatched_paren_amended (s : List Char) (hne : s ≠ [])
    (hs : ∀ c ∈ s, isLowerChar c = true) :
    markerLevel (s ++ [')']) =
      (if s.all (· ∈ romanChars) then 2 else 1) := by
  obtain ⟨c0, t, rfl⟩ := List.exists_cons_of_ne_nil hne
  have hc0 := lower_char_facts (hs c0 (by simp))
  have hfacts : ∀ c ∈ c0 :: t,
      isDigitChar c = false ∧ isSpaceChar c = false ∧ isUpperChar c = false ∧
        c ≠ '(' ∧ c ≠ ')' ∧ c ≠ '.' ∧ c ≠ '\n' :=
    fun c hc => lower_char_facts (hs c hc)
  have hnospace2 : ∀ c ∈ (c0 :: t) ++ [')'], isSpaceChar c = false := by
    intro c hc
    simp only [List.mem_append, List.mem_singleton] at hc
    rcases hc with hc | rfl
    · exact (hfacts c hc).2.1
    · decide
  have hnonl : ∀ c ∈ c0 :: t, c ≠ '\n' := fun c hc => (hfacts c hc).2.2.2.2.2.2
  have hnoparen : ∀ c ∈ c0 :: t, decide (c ∈ (['(', ')'] : List Char)) = false := by
    intro c hc
    have h := hfacts c hc
    rw [decide_eq_false_iff_not]
    simp [h.2.2.2.1, h.2.2.2.2.1]
  have hnodot : ∀ c ∈ c0 :: t, (c == '.') = false := by
    intro c hc
    simp [(hfacts c hc).2.2.2.2.2.1]
  have hdd : digitsDashLetters (c0 :: t) = false := by
    unfold digitsDashLetters
    simp [List.takeWhile_cons, hc0.1]
  have had : allDigits (c0 :: t) = false := by
    unfold allDigits
    simp [hc0.1]
  have hau : allUpper (c0 :: t) = false := by
    unfold allUpper
    simp [hc0.2.2.1]
  have hal : allLower (c0 :: t) = true := by
    unfold allLower
    simp only [List.all_eq_true, List.isEmpty_cons, Bool.not_false, Bool.true_and]
    exact hs
  simp only [markerLevel]
  rw [pyStripChars_eq_self_of _ hnospace2,
    clean_of_close_append _ (by simp) hnoparen hnodot,
    pyFullMatch_eq_of_no_newline _ _ hnonl, pyFullMatch_eq_of_no_newline _ _ hnonl,
    pyFullMatch_eq_of_no_newline _ _ hnonl, pyFullMatch_eq_of_no_newline _ _ hnonl,
    pyFullMatch_eq_of_no_newline _ _ hnonl]
  have hhd : (((c0 :: t) ++ [')'] : List Char).headD ' ' == '(') = false := by
    simp [hc0.2.2.2.1]
  rw [hhd]
  simp only [hdd, had, Bool.false_and, Bool.false_eq_true, if_false]
  by_cases hr : (c0 :: t).all (· ∈ romanChars) = true
  · simp [allRoman, hr]
  · have hr2 : (c0 :: t).all (· ∈ romanChars) = false := Bool.eq_false_iff.mpr hr
    simp [allRoman, hr2, hau, hal]

/-- C7 amended witness: markerLevel "ab)" is 1 (lowercase letters, not all
roman). -/
theorem claim_unmatched_paren_amended_witness :
    markerLevel ['a', 'b', ')'] =
      (if ['a', 'b'].all (· ∈ romanChars) then 2 else 1) :=
  claim_unmatched_paren_amended ['a', 'b'] (by decide) (by decide)

/-! ## Python `splitlines` and `"\n".join`

`str.splitlines()` breaks at `\n`, `\r`, `\r\n` (one boundary), `\v`, `\f`,
`\x1c`–`\x1e`, `\x85`, ` `, ` `, and drops a final empty segment
produced by a trailing boundary. -/

/-- The line-boundary characters of `str.splitlines()`. -/
def lineBoundaryChars : List Char :=
  [Char.ofNat 10, Char.ofNat 13, Char.ofNat 11, Char.ofNat 12,
   Char.ofNat 28, Char.ofNat 29, Char.ofNat 30, Char.ofNat 133,
   Char.ofNat 8232, Char.ofNat 8233]

/-- Worker for `splitlines`: `acc` is the current (unterminated) line.  At a
boundary the current line is emitted (even when empty); at the end of input
the current line is emitted only when nonempty — this is exactly Python's
trailing-segment rule. -/
def splitlinesGo (acc : List Char) : List Char → List (List Char)
  | [] => if acc.isEmpty then [] else [acc]
  | c :: rest =>
    if c == '\r' then
      acc ::
        (match rest with
         | r2 :: rest2 =>
           if r2 == '\n' then splitlinesGo [] rest2
           else splitlinesGo [] (r2 :: rest2)
         | [] => splitlinesGo [] [])
    else if c ∈ lineBoundaryChars then acc :: splitlinesGo [] rest
    else splitlinesGo (acc ++ [c]) rest

/-- Python `str.splitlines()`. -/
def splitlinesPy (cs : List Char) : List (List Char) := splitlinesGo [] cs

/-- Python `"\n".join(lines)`. -/
def joinLines : List (List Char) → List Char
  | [] => []
  | [l] => l
  | l :: ls => l ++ '\n' :: joinLines ls

/-! ## The marker token pattern

Both regexes of the program share the marker-group alternation
`\(?\d+[).]|\(?[A-Za-z]+[).]|\d+-[A-Za-z][).]?` (tried left to right).
Backtracking inside the first two alternatives is vacuous: a shorter `\d+`
(or `[A-Za-z]+`) run ends on another digit (letter), which is not `)` or
`.`, and skipping the optional `(` when one is present leaves `\d+` (or
`[A-Za-z]+`) to fail on the `(` itself.  So each of those alternatives has
at most one candidate (maximal munch); the third alternative has two
candidates when its optional closer is present (greedy first).  The
candidate lists below enumerate exactly these, in the engine's order. -/

/-- `)` or `.` — the class `[).]`. -/
def isCloseChar (c : Char) : Bool := c == ')' || c == '.'

/-- After the maximal `test+` run: one closing character, then the suffix. -/
def runCloseTail (run : List Char) : List Char → Option (List Char × List Char)
  | c :: cs3 => if isCloseChar c then some (run ++ [c], cs3) else none
  | [] => none

/-- `test+ [).]` at the head of `cs`: the unique candidate (maximal run,
then one closing character), together with the remaining suffix. -/
def runClose (test : Char → Bool) (cs : List Char) : Option (List Char × List Char) :=
  if (cs.takeWhile test).isEmpty then none
  else runCloseTail (cs.takeWhile test) (cs.dropWhile test)

/-- `\(? test+ [).]` at the head of `cs`. -/
def altParenRun (test : Char → Bool) (cs : List Char) : Option (List Char × List Char) :=
  if cs.headD ' ' == '(' then
    (runClose test cs.tail).map (fun p => ('(' :: p.1, p.2))
  else runClose test cs

/-- After the maximal `\d+` run: `-[A-Za-z][).]?` with candidates in greedy
order (the optional closer consumed first when it is present). -/
def altCompoundTail (ds : List Char) : List Char → List (List Char × List Char)
  | c1 :: c2 :: c3 :: rest2 =>
    if c1 == '-' && isAlphaChar c2 then
      if isCloseChar c3 then
        [(ds ++ [c1, c2, c3], rest2), (ds ++ [c1, c2], c3 :: rest2)]
      else [(ds ++ [c1, c2], c3 :: rest2)]
    else []
  | [c1, c2] =>
    if c1 == '-' && isAlphaChar c2 then [(ds ++ [c1, c2], [])] else []
  | _ => []

/-- `\d+-[A-Za-z][).]?` at the head of `cs`: candidates in greedy order. -/
def altCompound (cs : List Char) : List (List Char × List Char) :=
  if (cs.takeWhile isDigitChar).isEmpty then []
  else altCompoundTail (cs.takeWhile isDigitChar) (cs.dropWhile isDigitChar)

/-- All candidates of the marker-group alternation at the head of `cs`, in
the order the regex engine tries them. -/
def markerCandidates (cs : List Char) : List (List Char × List Char) :=
  (altParenRun isDigitChar cs).toList ++ (altParenRun isAlphaChar cs).toList ++
    altCompound cs

/-- The `\b` assertion between a nonempty marker `m` and the following
suffix `rest`: a word/non-word transition (end of input counts as
non-word). -/
def wordBoundaryAfter (m rest : List Char) : Bool :=
  match m.getLast?, rest with
  | some lc, [] => isWordChar lc
  | some lc, c :: _ => isWordChar lc != isWordChar c
  | none, _ => false

/-! ## Line re-indentation (`apply_marker_indents`, source lines 167–180) -/

/-- `re.match(r"^\s*(\(?\d+[).]|\(?[A-Za-z]+[).]|\d+-[A-Za-z][).]?)\b", line)`:
the captured marker, if the line matches.  `\s*` is maximal munch (every
candidate starts with a non-space character), then the first candidate
satisfying `\b` wins. -/
def lineMarkerMatch (line : List Char) : Option (List Char) :=
  ((markerCandidates (line.dropWhile isSpaceChar)).find?
    (fun p => wordBoundaryAfter p.1 p.2)).map Prod.fst

/-- The per-line transform of the loop body: a matched line is re-emitted
as computed indent plus `line.strip()`; an unmatched line is kept as is. -/
def reindentLine (line : List Char) : List Char :=
  match lineMarkerMatch line with
  | none => line
  | some m => marker_indent m ++ pyStripChars line

/-- The `for line in text.splitlines()` accumulation loop. -/
def applyLinesLoop : List (List Char) → List (List Char)
  | [] => []
  | line :: rest => reindentLine line :: applyLinesLoop rest

/-- `apply_marker_indents`: split into lines, re-indent marker lines, join
with newlines. -/
def apply_marker_indents (text : List Char) : List Char :=
  joinLines (applyLinesLoop (splitlinesPy text))

/-- `apply_marker_indents` on `String`. -/
def applyMarkerIndentsS (s : String) : String :=
  ⟨apply_marker_indents s.data⟩

/-- Whether the text ends with a `splitlines` boundary character. -/
def endsInLineBoundary (t : List Char) : Bool :=
  match t.getLast? with
  | some c => c ∈ lineBoundaryChars
  | none => false

/-! ## C10 and the C5 counterexample -/

theorem applyLinesLoop_eq_map (l : List (List Char)) :
    applyLinesLoop l = l.map reindentLine := by
  induction l with
  | nil => rfl
  | cons a t ih => simp [applyLinesLoop, ih]

/-- C10: in the re-indentation pass, each line of `text.splitlines()` that
matches the leading-marker pattern is replaced by the computed indent
followed by the line stripped of whitespace on BOTH ends (leading via
`dropWhile`, trailing via `rtrimWhile` — this is `line.strip()`), while
every non-matching line is passed through byte-for-byte unchanged; the
results are joined with newlines. -/
theorem claim_reindent_line_frame (text : List Char) :
    apply_marker_indents text =
      joinLines ((splitlinesPy text).map (fun line =>
        match lineMarkerMatch line with
        | none => line
        | some m => marker_indent m ++
            rtrimWhile isSpaceChar (line.dropWhile isSpaceChar))) := by
  unfold apply_marker_indents
  rw [applyLinesLoop_eq_map]
  rfl

/-- C5 counterexample: on the input "a\n\n" the pass is not idempotent —
`splitlines` of "a\n\n" is ["a", ""], which joins back to "a\n", and a
second application splits that to ["a"] and returns "a". -/
theorem claim_reindent_idem_counterexample :
    applyMarkerIndentsS (applyMarkerIndentsS "a\n\n") ≠
      applyMarkerIndentsS "a\n\n" := by decide

/-! ## More list lemmas for the matcher proofs -/

theorem takeWhile_append_all (p : Char → Bool) (xs ys : List Char)
    (h : ∀ c ∈ xs, p c = true) :
    (xs ++ ys).takeWhile p = xs ++ ys.takeWhile p := by
  induction xs with
  | nil => simp
  | cons a t ih =>
    simp only [List.cons_append, List.takeWhile_cons, h a (by simp)]
    rw [ih (fun c hc => h c (by simp [hc]))]
    simp

theorem dropWhile_append_all (p : Char → Bool) (xs ys : List Char)
    (h : ∀ c ∈ xs, p c = true) :
    (xs ++ ys).dropWhile p = ys.dropWhile p := by
  induction xs with
  | nil => simp
  | cons a t ih =>
    simp only [List.cons_append, List.dropWhile_cons, h a (by simp)]
    exact ih (fun c hc => h c (by simp [hc]))

theorem takeWhile_append_none (p : Char → Bool) (xs ys : List Char)
    (h : ∀ c ∈ ys, p c = false) :
    (xs ++ ys).takeWhile p = xs.takeWhile p := by
  induction xs with
  | nil =>
    simp only [List.nil_append, List.takeWhile_nil]
    cases ys with
    | nil => rfl
    | cons b t => simp [List.takeWhile_cons, h b (by simp)]
  | cons a t ih =>
    simp only [List.cons_append, List.takeWhile_cons]
    cases hp : p a <;> simp [ih]

theorem dropWhile_append_none (p : Char → Bool) (xs ys : List Char)
    (h : ∀ c ∈ ys, p c = false) :
    (xs ++ ys).dropWhile p = xs.dropWhile p ++ ys := by
  induction xs with
  | nil =>
    simp only [List.nil_append, List.dropWhile_nil]
    exact dropWhile_eq_self_of p ys h
  | cons a t ih =>
    simp only [List.cons_append, List.dropWhile_cons]
    cases hp : p a <;> simp [ih]

theorem dropWhile_idem (p : Char → Bool) (l : List Char) :
    (l.dropWhile p).dropWhile p = l.dropWhile p := by
  induction l with
  | nil => rfl
  | cons a t ih =>
    simp only [List.dropWhile_cons]
    cases hp : p a with
    | true => simpa using ih
    | false => simp [List.dropWhile_cons, hp]

theorem rtrimWhile_append_clean (p : Char → Bool) (xs ys : List Char)
    (h : ∀ c ∈ xs, p c = false) :
    rtrimWhile p (xs ++ ys) = xs ++ rtrimWhile p ys := by
  unfold rtrimWhile
  rw [List.reverse_append,
    dropWhile_append_none p ys.reverse xs.reverse
      (fun c hc => h c (List.mem_reverse.mp hc)),
    List.reverse_append, List.reverse_reverse]

theorem rtrimWhile_decomp (p : Char → Bool) (l : List Char) :
    ∃ ws, l = rtrimWhile p l ++ ws ∧ ∀ c ∈ ws, p c = true := by
  refine ⟨(l.reverse.takeWhile p).reverse, ?_, ?_⟩
  · unfold rtrimWhile
    rw [← List.reverse_append, List.takeWhile_append_dropWhile, List.reverse_reverse]
  · intro c hc
    exact List.mem_takeWhile_imp (List.mem_reverse.mp hc)

theorem rtrimWhile_idem (p : Char → Bool) (l : List Char) :
    rtrimWhile p (rtrimWhile p l) = rtrimWhile p l := by
  unfold rtrimWhile
  rw [List.reverse_reverse, dropWhile_idem]

theorem mem_rtrimWhile_sub (p : Char → Bool) (l : List Char) {c : Char}
    (hc : c ∈ rtrimWhile p l) : c ∈ l := by
  unfold rtrimWhile at hc
  rw [List.mem_reverse] at hc
  exact List.mem_reverse.mp ((List.dropWhile_sublist p).mem hc)

theorem mem_pyStripChars_sub (l : List Char) {c : Char}
    (hc : c ∈ pyStripChars l) : c ∈ l := by
  unfold pyStripChars at hc
  exact (List.dropWhile_sublist isSpaceChar).mem (mem_rtrimWhile_sub _ _ hc)

theorem find?_congr_pred (p q : List Char × List Char → Bool)
    (l : List (List Char × List Char)) (h : ∀ x ∈ l, p x = q x) :
    l.find? p = l.find? q := by
  induction l with
  | nil => rfl
  | cons a t ih =>
    simp only [List.find?_cons]
    rw [h a (by simp)]
    cases q a
    · exact ih (fun x hx => h x (by simp [hx]))
    · rfl

/-! ## Character class exclusion facts -/

theorem space_char_facts {c : Char} (h : isSpaceChar c = true) :
    isDigitChar c = false ∧ isAlphaChar c = false ∧ isWordChar c = false ∧
      isCloseChar c = false ∧ (c == '(') = false ∧ (c == '-') = false := by
  rw [isSpaceChar, decide_eq_true_eq] at h
  have hu : c ≠ '_' := fun hh => absurd (hh ▸ h) (by decide)
  have hcl : c ≠ ')' := fun hh => absurd (hh ▸ h) (by decide)
  have hdot : c ≠ '.' := fun hh => absurd (hh ▸ h) (by decide)
  have hop : c ≠ '(' := fun hh => absurd (hh ▸ h) (by decide)
  have hdash : c ≠ '-' := fun hh => absurd (hh ▸ h) (by decide)
  have hd : isDigitChar c = false := by
    rw [isDigitChar, decide_eq_false_iff_not]; omega
  have ha : isAlphaChar c = false := by
    rw [isAlphaChar, isUpperChar, isLowerChar, Bool.or_eq_false_iff]
    constructor <;> (rw [decide_eq_false_iff_not]; omega)
  refine ⟨hd, ha, ?_, ?_, ?_, ?_⟩
  · rw [isWordChar, Bool.or_eq_false_iff, Bool.or_eq_false_iff]
    exact ⟨⟨ha, hd⟩, by simp [hu]⟩
  · rw [isCloseChar, Bool.or_eq_false_iff]
    simp [hcl, hdot]
  · simp [hop]
  · simp [hdash]

theorem digit_char_facts {c : Char} (h : isDigitChar c = true) :
    isSpaceChar c = false ∧ isAlphaChar c = false ∧ isWordChar c = true ∧
      isCloseChar c = false ∧ (c == '(') = false ∧ (c == '-') = false ∧
      c ∉ lineBoundaryChars := by
  rw [isDigitChar, decide_eq_true_eq] at h
  have hcl : c ≠ ')' := fun hh => absurd (hh ▸ h) (by decide)
  have hdot : c ≠ '.' := fun hh => absurd (hh ▸ h) (by decide)
  have hop : c ≠ '(' := fun hh => absurd (hh ▸ h) (by decide)
  have hdash : c ≠ '-' := fun hh => absurd (hh ▸ h) (by decide)
  refine ⟨?_, ?_, ?_, ?_, by simp [hop], by simp [hdash], ?_⟩
  · rw [isSpaceChar, decide_eq_false_iff_not]; omega
  · rw [isAlphaChar, isUpperChar, isLowerChar, Bool.or_eq_false_iff]
    constructor <;> (rw [decide_eq_false_iff_not]; omega)
  · rw [isWordChar, isDigitChar]
    simp [decide_eq_true_eq, h]
  · rw [isCloseChar, Bool.or_eq_false_iff]
    simp [hcl, hdot]
  · intro hb
    simp only [lineBoundaryChars, List.mem_cons, List.not_mem_nil, or_false] at hb
    rcases hb with rfl | rfl | rfl | rfl | rfl | rfl | rfl | rfl | rfl | rfl <;>
      revert h <;> decide

theorem alpha_char_facts {c : Char} (h : isAlphaChar c = true) :
    isSpaceChar c = false ∧ isDigitChar c = false ∧ isWordChar c = true ∧
      isCloseChar c = false ∧ (c == '(') = false ∧
      c ∉ lineBoundaryChars := by
  rw [isAlphaChar, Bool.or_eq_true, isUpperChar, isLowerChar,
    decide_eq_true_eq, decide_eq_true_eq] at h
  have hcl : c ≠ ')' := fun hh => absurd (hh ▸ h) (by decide)
  have hdot : c ≠ '.' := fun hh => absurd (hh ▸ h) (by decide)
  have hop : c ≠ '(' := fun hh => absurd (hh ▸ h) (by decide)
  refine ⟨?_, ?_, ?_, ?_, by simp [hop], ?_⟩
  · rw [isSpaceChar, decide_eq_false_iff_not]; omega
  · rw [isDigitChar, decide_eq_false_iff_not]; omega
  · rw [isWordChar, isAlphaChar, isUpperChar, isLowerChar]
    rcases h with h | h <;> simp [decide_eq_true_eq, h]
  · rw [isCloseChar, Bool.or_eq_false_iff]
    simp [hcl, hdot]
  · intro hb
    simp only [lineBoundaryChars, List.mem_cons, List.not_mem_nil, or_false] at hb
    rcases hb with rfl | rfl | rfl | rfl | rfl | rfl | rfl | rfl | rfl | rfl <;>
      revert h <;> decide

theorem close_char_facts {c : Char} (h : isCloseChar c = true) :
    isSpaceChar c = false ∧ isDigitChar c = false ∧ isAlphaChar c = false ∧
      isWordChar c = false ∧ c ∉ lineBoundaryChars := by
  rw [isCloseChar, Bool.or_eq_true, beq_iff_eq, beq_iff_eq] at h
  rcases h with rfl | rfl <;>
    exact ⟨by decide, by decide, by decide, by decide, by decide⟩

/-! ## Structure of the marker candidates -/

theorem runClose_decomp {test : Char → Bool} {cs m r : List Char}
    (h : runClose test cs = some (m, r)) :
    m ++ r = cs ∧ m ≠ [] ∧
      (∀ c ∈ m, test c = true ∨ isCloseChar c = true) := by
  unfold runClose at h
  by_cases hemp : (cs.takeWhile test).isEmpty
  · rw [if_pos hemp] at h
    exact absurd h (by simp)
  rw [if_neg hemp] at h
  cases hd : cs.dropWhile test with
  | nil => rw [hd] at h; simp [runCloseTail] at h
  | cons c cs3 =>
    rw [hd] at h
    by_cases hcl : isCloseChar c = true
    · rw [runCloseTail, if_pos hcl] at h
      injection h with h1
      injection h1 with hm hr
      subst hm
      subst hr
      refine ⟨?_, by simp, ?_⟩
      · rw [List.append_assoc, List.singleton_append, ← hd,
          List.takeWhile_append_dropWhile]
      · intro c2 hc2
        rcases List.mem_append.mp hc2 with hc3 | hc3
        · exact Or.inl (List.mem_takeWhile_imp hc3)
        · rw [List.mem_singleton.mp hc3]
          exact Or.inr hcl
    · rw [runCloseTail, if_neg hcl] at h
      exact absurd h (by simp)

theorem altParenRun_decomp {test : Char → Bool} {cs m r : List Char}
    (h : altParenRun test cs = some (m, r)) :
    m ++ r = cs ∧ m ≠ [] ∧
      (∀ c ∈ m, test c = true ∨ isCloseChar c = true ∨ c = '(') := by
  unfold altParenRun at h
  split at h
  · rename_i hh
    cases hrc : runClose test cs.tail with
    | none => rw [hrc] at h; exact absurd h (by simp)
    | some p =>
      rw [hrc] at h
      simp only [Option.map_some'] at h
      injection h with h1
      obtain ⟨p1, p2⟩ := p
      injection h1 with hm hr
      subst hm
      subst hr
      obtain ⟨hd, hne, hmem⟩ := runClose_decomp hrc
      have hcs : cs = '(' :: cs.tail := by
        cases cs with
        | nil => exact absurd hh (by decide)
        | cons a t =>
          simp only [List.headD_cons, beq_iff_eq] at hh
          simp [hh]
      refine ⟨?_, by simp, ?_⟩
      · rw [List.cons_append, hd, ← hcs]
      · intro c2 hc2
        rcases List.mem_cons.mp hc2 with rfl | hc3
        · exact Or.inr (Or.inr rfl)
        · rcases hmem c2 hc3 with h1 | h1
          · exact Or.inl h1
          · exact Or.inr (Or.inl h1)
  · obtain ⟨hd, hne, hmem⟩ := runClose_decomp h
    exact ⟨hd, hne, fun c2 hc2 => (hmem c2 hc2).imp_right Or.inl⟩

theorem altCompound_decomp {cs m r : List Char}
    (h : (m, r) ∈ altCompound cs) :
    m ++ r = cs ∧ m ≠ [] ∧
      (∀ c ∈ m, isDigitChar c = true ∨ isAlphaChar c = true ∨
        isCloseChar c = true ∨ c = '-') := by
  unfold altCompound at h
  by_cases hemp : (cs.takeWhile isDigitChar).isEmpty
  · rw [if_pos hemp] at h
    exact absurd h (by simp)
  rw [if_neg hemp] at h
  have hdigits : ∀ c ∈ cs.takeWhile isDigitChar, isDigitChar c = true :=
    fun c hc => List.mem_takeWhile_imp hc
  have hpre : cs.takeWhile isDigitChar ++ cs.dropWhile isDigitChar = cs :=
    List.takeWhile_append_dropWhile isDigitChar cs
  have hchars2 : ∀ c1 c2 : Char, c1 = '-' → isAlphaChar c2 = true →
      ∀ c ∈ cs.takeWhile isDigitChar ++ [c1, c2],
        isDigitChar c = true ∨ isAlphaChar c = true ∨
          isCloseChar c = true ∨ c = '-' := by
    intro c1 c2 hc1 hc2 c hc
    rcases List.mem_append.mp hc with hcc | hcc
    · exact Or.inl (hdigits c hcc)
    · simp only [List.mem_cons, List.not_mem_nil, or_false] at hcc
      rcases hcc with rfl | rfl
      · exact Or.inr (Or.inr (Or.inr hc1))
      · exact Or.inr (Or.inl hc2)
  cases hd : cs.dropWhile isDigitChar with
  | nil => rw [hd] at h; simp [altCompoundTail] at h
  | cons c1 rest1 =>
    cases hr1 : rest1 with
    | nil => rw [hd, hr1] at h; simp [altCompoundTail] at h
    | cons c2 rest =>
      rw [hd, hr1] at hpre
      cases hrr : rest with
      | nil =>
        rw [hd, hr1, hrr, altCompoundTail] at h
        rw [hrr] at hpre
        by_cases hcond : (c1 == '-' && isAlphaChar c2) = true
        case neg => rw [if_neg hcond] at h; exact absurd h (by simp)
        rw [if_pos hcond] at h
        rw [Bool.and_eq_true, beq_iff_eq] at hcond
        obtain ⟨hc1, hc2⟩ := hcond
        simp only [List.mem_singleton] at h
        injection h with hm hrrr
        subst hm
        subst hrrr
        subst hc1
        exact ⟨by rw [List.append_nil, hpre], by simp, hchars2 _ _ rfl hc2⟩
      | cons c3 rest2 =>
        rw [hd, hr1, hrr, altCompoundTail] at h
        rw [hrr] at hpre
        by_cases hcond : (c1 == '-' && isAlphaChar c2) = true
        case neg => rw [if_neg hcond] at h; exact absurd h (by simp)
        rw [if_pos hcond] at h
        rw [Bool.and_eq_true, beq_iff_eq] at hcond
        obtain ⟨hc1, hc2⟩ := hcond
        subst hc1
        by_cases hcl : isCloseChar c3 = true
        · rw [if_pos hcl] at h
          rcases List.mem_cons.mp h with h1 | h1
          · injection h1 with hm hrrr
            subst hm
            subst hrrr
            refine ⟨?_, by simp, ?_⟩
            · rw [List.append_assoc]
              exact hpre
            · intro c hc
              rcases List.mem_append.mp hc with hcc | hcc
              · exact Or.inl (hdigits c hcc)
              · simp only [List.mem_cons, List.not_mem_nil, or_false] at hcc
                rcases hcc with rfl | rfl | rfl
                · exact Or.inr (Or.inr (Or.inr rfl))
                · exact Or.inr (Or.inl hc2)
                · exact Or.inr (Or.inr (Or.inl hcl))
          · simp only [List.mem_singleton] at h1
            injection h1 with hm hrrr
            subst hm
            subst hrrr
            refine ⟨?_, by simp, hchars2 _ _ rfl hc2⟩
            rw [List.append_assoc]
            exact hpre
        · rw [if_neg hcl] at h
          simp only [List.mem_singleton] at h
          injection h with hm hrrr
          subst hm
          subst hrrr
          refine ⟨?_, by simp, hchars2 _ _ rfl hc2⟩
          rw [List.append_assoc]
          exact hpre

theorem markerCandidates_decomp {cs m r : List Char}
    (h : (m, r) ∈ markerCandidates cs) :
    m ++ r = cs ∧ m ≠ [] ∧
      ∀ c ∈ m, isSpaceChar c = false ∧ c ∉ lineBoundaryChars := by
  unfold markerCandidates at h
  have charsOf : ∀ c : Char,
      (isDigitChar c = true ∨ isAlphaChar c = true ∨ isCloseChar c = true ∨
        c = '(' ∨ c = '-') →
      isSpaceChar c = false ∧ c ∉ lineBoundaryChars := by
    intro c hc
    rcases hc with h1 | h1 | h1 | rfl | rfl
    · exact ⟨(digit_char_facts h1).1, (digit_char_facts h1).2.2.2.2.2.2⟩
    · exact ⟨(alpha_char_facts h1).1, (alpha_char_facts h1).2.2.2.2.2⟩
    · exact ⟨(close_char_facts h1).1, (close_char_facts h1).2.2.2.2⟩
    · exact ⟨by decide, by decide⟩
    · exact ⟨by decide, by decide⟩
  rcases List.mem_append.mp h with h1 | h1
  · rcases List.mem_append.mp h1 with h2 | h2
    · rw [Option.mem_toList, Option.mem_def] at h2
      obtain ⟨hd, hne, hmem⟩ := altParenRun_decomp h2
      refine ⟨hd, hne, fun c hc => charsOf c ?_⟩
      rcases hmem c hc with hh | hh | hh
      · exact Or.inl hh
      · exact Or.inr (Or.inr (Or.inl hh))
      · exact Or.inr (Or.inr (Or.inr (Or.inl hh)))
    · rw [Option.mem_toList, Option.mem_def] at h2
      obtain ⟨hd, hne, hmem⟩ := altParenRun_decomp h2
      refine ⟨hd, hne, fun c hc => charsOf c ?_⟩
      rcases hmem c hc with hh | hh | hh
      · exact Or.inr (Or.inl hh)
      · exact Or.inr (Or.inr (Or.inl hh))
      · exact Or.inr (Or.inr (Or.inr (Or.inl hh)))
  · obtain ⟨hd, hne, hmem⟩ := altCompound_decomp h1
    refine ⟨hd, hne, fun c hc => charsOf c ?_⟩
    rcases hmem c hc with hh | hh | hh | hh
    · exact Or.inl hh
    · exact Or.inr (Or.inl hh)
    · exact Or.inr (Or.inr (Or.inl hh))
    · exact Or.inr (Or.inr (Or.inr (Or.inr hh)))

/-! ## Appending trailing whitespace does not change the matched marker

The line pattern reads at most one character past the candidate marker
(for `\b`), and every character test it applies rejects whitespace exactly
as it rejects end-of-input.  These lemmas make that precise: appending a
whitespace suffix `ws` to the scanned text maps each candidate `(m, r)` to
`(m, r ++ ws)` and leaves the `\b` outcome unchanged. -/

theorem runClose_append_ws (test : Char → Bool) (xs ws : List Char)
    (hws : ∀ c ∈ ws, test c = false ∧ isCloseChar c = false) :
    runClose test (xs ++ ws) =
      (runClose test xs).map (fun p => (p.1, p.2 ++ ws)) := by
  unfold runClose
  rw [takeWhile_append_none test xs ws (fun c hc => (hws c hc).1),
    dropWhile_append_none test xs ws (fun c hc => (hws c hc).1)]
  by_cases hemp : (xs.takeWhile test).isEmpty
  · simp [hemp]
  rw [if_neg hemp, if_neg hemp]
  cases hd : xs.dropWhile test with
  | nil =>
    simp only [List.nil_append]
    cases ws with
    | nil => simp [runCloseTail]
    | cons w ws2 =>
      rw [runCloseTail, if_neg]
      · simp [runCloseTail]
      · simp [(hws w (by simp)).2]
  | cons c cs3 =>
    simp only [List.cons_append]
    rw [runCloseTail, runCloseTail]
    by_cases hcl : isCloseChar c = true
    · rw [if_pos hcl, if_pos hcl]
      simp
    · rw [if_neg hcl, if_neg hcl]
      simp

theorem altParenRun_append_ws (test : Char → Bool) (xs ws : List Char)
    (hws : ∀ c ∈ ws,
      test c = false ∧ isCloseChar c = false ∧ (c == '(') = false) :
    altParenRun test (xs ++ ws) =
      (altParenRun test xs).map (fun p => (p.1, p.2 ++ ws)) := by
  unfold altParenRun
  have hrc := runClose_append_ws test
  cases xs with
  | nil =>
    simp only [List.nil_append]
    cases ws with
    | nil => simp
    | cons w ws2 =>
      rw [if_neg (by simp [(hws w (by simp)).2.2])]
      have h0 : runClose test [] = none := by
        unfold runClose
        simp
      rw [h0]
      have h1 : runClose test (w :: ws2) = none := by
        unfold runClose
        rw [if_pos]
        simp [List.takeWhile_cons, (hws w (by simp)).1]
      rw [h1]
      simp
  | cons a t =>
    simp only [List.cons_append, List.headD_cons, List.tail_cons]
    by_cases ha : (a == '(') = true
    · rw [if_pos ha, if_pos ha,
        hrc t ws (fun c hc => ⟨(hws c hc).1, (hws c hc).2.1⟩)]
      cases runClose test t with
      | none => simp
      | some p => simp
    · rw [if_neg ha, if_neg ha]
      exact hrc (a :: t) ws (fun c hc => ⟨(hws c hc).1, (hws c hc).2.1⟩)

theorem altCompound_append_ws (xs ws : List Char)
    (hws : ∀ c ∈ ws, isDigitChar c = false ∧ isAlphaChar c = false ∧
      isCloseChar c = false ∧ (c == '-') = false) :
    altCompound (xs ++ ws) =
      (altCompound xs).map (fun p => (p.1, p.2 ++ ws)) := by
  unfold altCompound
  rw [takeWhile_append_none isDigitChar xs ws (fun c hc => (hws c hc).1),
    dropWhile_append_none isDigitChar xs ws (fun c hc => (hws c hc).1)]
  by_cases hemp : (xs.takeWhile isDigitChar).isEmpty
  · simp [hemp]
  rw [if_neg hemp, if_neg hemp]
  cases hd : xs.dropWhile isDigitChar with
  | nil =>
    simp only [List.nil_append]
    cases ws with
    | nil => simp [altCompoundTail]
    | cons w1 ws1 =>
      cases ws1 with
      | nil => simp [altCompoundTail, (hws w1 (by simp)).2.2.2]
      | cons w2 ws2 =>
        have hw1 : (w1 == '-') = false := (hws w1 (by simp)).2.2.2
        cases ws2 with
        | nil => simp [altCompoundTail, hw1]
        | cons w3 ws3 => simp [altCompoundTail, hw1]
  | cons c1 rest1 =>
    cases hr1 : rest1 with
    | nil =>
      simp only [List.cons_append, List.nil_append]
      cases ws with
      | nil => simp [altCompoundTail]
      | cons w2 ws2 =>
        cases ws2 with
        | nil =>
          have hw2 : isAlphaChar w2 = false := (hws w2 (by simp)).2.1
          simp [altCompoundTail, hw2]
        | cons w3 ws3 =>
          have hw2 : isAlphaChar w2 = false := (hws w2 (by simp)).2.1
          simp [altCompoundTail, hw2]
    | cons c2 rest =>
      cases hrr : rest with
      | nil =>
        simp only [List.cons_append, List.nil_append]
        cases ws with
        | nil => simp [altCompoundTail]
        | cons w3 ws3 =>
          have hw3 : isCloseChar w3 = false := (hws w3 (by simp)).2.2.1
          rw [altCompoundTail, altCompoundTail]
          by_cases hcond : (c1 == '-' && isAlphaChar c2) = true
          · rw [if_pos hcond, if_pos hcond, if_neg (by simp [hw3])]
            simp
          · rw [if_neg hcond, if_neg hcond]
            simp
      | cons c3 rest2 =>
        simp only [List.cons_append]
        rw [altCompoundTail, altCompoundTail]
        by_cases hcond : (c1 == '-' && isAlphaChar c2) = true
        · rw [if_pos hcond, if_pos hcond]
          by_cases hcl : isCloseChar c3 = true
          · rw [if_pos hcl, if_pos hcl]
            simp
          · rw [if_neg hcl, if_neg hcl]
            simp
        · rw [if_neg hcond, if_neg hcond]
          simp

theorem optToList_map (f : List Char × List Char → List Char × List Char)
    (o : Option (List Char × List Char)) :
    (Option.map f o).toList = o.toList.map f := by
  cases o <;> rfl

theorem markerCandidates_append_ws (xs ws : List Char)
    (hws : ∀ c ∈ ws, isSpaceChar c = true) :
    markerCandidates (xs ++ ws) =
      (markerCandidates xs).map (fun p => (p.1, p.2 ++ ws)) := by
  have hfacts : ∀ c ∈ ws,
      isDigitChar c = false ∧ isAlphaChar c = false ∧ isWordChar c = false ∧
        isCloseChar c = false ∧ (c == '(') = false ∧ (c == '-') = false :=
    fun c hc => space_char_facts (hws c hc)
  unfold markerCandidates
  rw [altParenRun_append_ws isDigitChar xs ws
      (fun c hc => ⟨(hfacts c hc).1, (hfacts c hc).2.2.2.1, (hfacts c hc).2.2.2.2.1⟩),
    altParenRun_append_ws isAlphaChar xs ws
      (fun c hc => ⟨(hfacts c hc).2.1, (hfacts c hc).2.2.2.1, (hfacts c hc).2.2.2.2.1⟩),
    altCompound_append_ws xs ws
      (fun c hc => ⟨(hfacts c hc).1, (hfacts c hc).2.1, (hfacts c hc).2.2.2.1,
        (hfacts c hc).2.2.2.2.2⟩)]
  simp [List.map_append, optToList_map]

theorem wordBoundaryAfter_append_ws (m r ws : List Char) (hm : m ≠ [])
    (hws : ∀ c ∈ ws, isWordChar c = false) :
    wordBoundaryAfter m (r ++ ws) = wordBoundaryAfter m r := by
  cases hl : m.getLast? with
  | none =>
    rw [List.getLast?_eq_none_iff] at hl
    exact absurd hl hm
  | some lc =>
    unfold wordBoundaryAfter
    rw [hl]
    cases r with
    | cons c t => simp
    | nil =>
      simp only [List.nil_append]
      cases ws with
      | nil => simp
      | cons w ws2 => simp [hws w (by simp)]

/-! ## Re-matching a re-indented line finds the same marker -/

theorem lineMarkerMatch_rematch (line m : List Char)
    (h : lineMarkerMatch line = some m) :
    lineMarkerMatch (marker_indent m ++ pyStripChars line) = some m ∧
      pyStripChars (marker_indent m ++ pyStripChars line) = pyStripChars line := by
  unfold lineMarkerMatch at h
  cases hf : (markerCandidates (line.dropWhile isSpaceChar)).find?
      (fun p => wordBoundaryAfter p.1 p.2) with
  | none => rw [hf] at h; exact absurd h (by simp)
  | some q =>
    rw [hf] at h
    simp only [Option.map_some'] at h
    injection h with hm
    have hfm : (markerCandidates (line.dropWhile isSpaceChar)).find?
        (fun p => wordBoundaryAfter p.1 p.2) = some (m, q.2) := by
      rw [hf, ← hm]
    have hmem : (m, q.2) ∈ markerCandidates (line.dropWhile isSpaceChar) :=
      List.mem_of_find?_eq_some hfm
    obtain ⟨hmr, hmne, hmchars⟩ := markerCandidates_decomp hmem
    have hmsp : ∀ c ∈ m, isSpaceChar c = false :=
      fun c hc => (hmchars c hc).1
    obtain ⟨ws, hwsdecomp, hws⟩ := rtrimWhile_decomp isSpaceChar q.2
    have hs2 : line.dropWhile isSpaceChar =
        (m ++ rtrimWhile isSpaceChar q.2) ++ ws := by
      rw [← hmr, List.append_assoc, ← hwsdecomp]
    have hcand : markerCandidates (line.dropWhile isSpaceChar) =
        (markerCandidates (m ++ rtrimWhile isSpaceChar q.2)).map
          (fun p => (p.1, p.2 ++ ws)) := by
      rw [hs2]
      exact markerCandidates_append_ws _ ws hws
    rw [hcand, List.find?_map] at hfm
    have hpred : (markerCandidates (m ++ rtrimWhile isSpaceChar q.2)).find?
          ((fun p => wordBoundaryAfter p.1 p.2) ∘ fun p => (p.1, p.2 ++ ws)) =
        (markerCandidates (m ++ rtrimWhile isSpaceChar q.2)).find?
          (fun p => wordBoundaryAfter p.1 p.2) := by
      apply find?_congr_pred
      intro x hx
      obtain ⟨hd2, hne2, hch2⟩ := markerCandidates_decomp hx
      exact wordBoundaryAfter_append_ws x.1 x.2 ws hne2
        (fun c hc => (space_char_facts (hws c hc)).2.2.1)
    rw [hpred] at hfm
    cases hf2 : (markerCandidates (m ++ rtrimWhile isSpaceChar q.2)).find?
        (fun p => wordBoundaryAfter p.1 p.2) with
    | none => rw [hf2] at hfm; exact absurd hfm (by simp)
    | some q2 =>
      rw [hf2] at hfm
      simp only [Option.map_some'] at hfm
      injection hfm with hfm2
      have hq1 : q2.1 = m := by
        have := congrArg Prod.fst hfm2
        simpa using this
      have hq2 : q2.2 ++ ws = q.2 := by
        have := congrArg Prod.snd hfm2
        simpa using this
      have hq22 : q2.2 = rtrimWhile isSpaceChar q.2 := by
        apply @List.append_cancel_right _ _ ws _
        rw [hq2]
        exact hwsdecomp
      have hfind : (markerCandidates (m ++ rtrimWhile isSpaceChar q.2)).find?
          (fun p => wordBoundaryAfter p.1 p.2) =
          some (m, rtrimWhile isSpaceChar q.2) := by
        rw [hf2, ← hq1, ← hq22]
      have hpyline : pyStripChars line = m ++ rtrimWhile isSpaceChar q.2 := by
        unfold pyStripChars
        rw [← hmr, rtrimWhile_append_clean isSpaceChar m q.2 hmsp]
      have hind : ∀ c ∈ marker_indent m, isSpaceChar c = true := by
        intro c hc
        unfold marker_indent at hc
        rw [List.eq_of_mem_replicate hc]
        decide
      have hdrop : (marker_indent m ++
          (m ++ rtrimWhile isSpaceChar q.2)).dropWhile isSpaceChar =
          m ++ rtrimWhile isSpaceChar q.2 := by
        rw [dropWhile_append_all isSpaceChar _ _ hind]
        obtain ⟨m0, mt, hmdec⟩ := List.exists_cons_of_ne_nil hmne
        rw [hmdec]
        simp [List.dropWhile_cons, hmsp m0 (by rw [hmdec]; simp)]
      constructor
      · unfold lineMarkerMatch
        rw [hpyline, hdrop, hfind]
        simp
      · conv_lhs => rw [hpyline]
        unfold pyStripChars
        rw [hdrop, rtrimWhile_append_clean isSpaceChar m _ hmsp, rtrimWhile_idem,
          ← hmr, rtrimWhile_append_clean isSpaceChar m q.2 hmsp]

theorem reindentLine_idem (l : List Char) :
    reindentLine (reindentLine l) = reindentLine l := by
  cases h : lineMarkerMatch l with
  | none => simp [reindentLine, h]
  | some m =>
    obtain ⟨h1, h2⟩ := lineMarkerMatch_rematch l m h
    simp [reindentLine, h, h1, h2]

/-! ## Properties of `splitlines` and `join` -/

theorem splitlinesGo_cons_plain (acc : List Char) (c : Char) (rest : List Char)
    (hb : c ∉ lineBoundaryChars) :
    splitlinesGo acc (c :: rest) = splitlinesGo (acc ++ [c]) rest := by
  have hcr : (c == '\r') = false := by
    rw [beq_eq_false_iff_ne]
    intro hc
    exact hb (by rw [hc]; decide)
  cases rest with
  | nil =>
    rw [splitlinesGo.eq_3, hcr]
    simp only [Bool.false_eq_true, if_false]
    rw [if_neg hb]
  | cons r2 rest2 =>
    rw [splitlinesGo.eq_2, hcr]
    simp only [Bool.false_eq_true, if_false]
    rw [if_neg hb]

theorem splitlinesGo_cons_boundary (acc : List Char) (c : Char)
    (rest : List Char) (hcr : (c == '\r') = false)
    (hb : c ∈ lineBoundaryChars) :
    splitlinesGo acc (c :: rest) = acc :: splitlinesGo [] rest := by
  cases rest with
  | nil =>
    rw [splitlinesGo.eq_3, hcr]
    simp only [Bool.false_eq_true, if_false]
    rw [if_pos hb]
  | cons r2 rest2 =>
    rw [splitlinesGo.eq_2, hcr]
    simp only [Bool.false_eq_true, if_false]
    rw [if_pos hb]

theorem splitlinesGo_crlf (acc : List Char) (rest2 : List Char) :
    splitlinesGo acc ('\r' :: '\n' :: rest2) = acc :: splitlinesGo [] rest2 := by
  rw [splitlinesGo.eq_2]
  simp

theorem splitlinesGo_cr_other (acc : List Char) (r2 : Char) (rest2 : List Char)
    (hr2 : (r2 == '\n') = false) :
    splitlinesGo acc ('\r' :: r2 :: rest2) =
      acc :: splitlinesGo [] (r2 :: rest2) := by
  rw [splitlinesGo.eq_2]
  simp [hr2]

theorem splitlinesGo_cr_nil (acc : List Char) :
    splitlinesGo acc ['\r'] = [acc] := by
  rw [splitlinesGo.eq_3]
  simp [splitlinesGo.eq_1]

theorem splitlinesGo_append (l : List Char)
    (h : ∀ c ∈ l, c ∉ lineBoundaryChars) :
    ∀ (acc rest : List Char),
      splitlinesGo acc (l ++ rest) = splitlinesGo (acc ++ l) rest := by
  induction l with
  | nil => intro acc rest; simp
  | cons c t ih =>
    intro acc rest
    rw [List.cons_append, splitlinesGo_cons_plain acc c (t ++ rest)
      (h c (by simp)), ih (fun c2 hc2 => h c2 (by simp [hc2])) (acc ++ [c]) rest]
    simp

theorem splitlinesGo_all_plain (l acc : List Char)
    (h : ∀ c ∈ l, c ∉ lineBoundaryChars) :
    splitlinesGo acc l =
      if (acc ++ l).isEmpty then [] else [acc ++ l] := by
  have h2 := splitlinesGo_append l h acc []
  rw [List.append_nil] at h2
  rw [h2, splitlinesGo.eq_1]

theorem splitlinesGo_ne_nil :
    ∀ (cs acc : List Char), acc ≠ [] ∨ cs ≠ [] → splitlinesGo acc cs ≠ [] := by
  intro cs
  induction cs with
  | nil =>
    intro acc h
    rcases h with h | h
    · rw [splitlinesGo.eq_1]
      simp [h]
    · exact absurd rfl h
  | cons c rest ih =>
    intro acc _
    by_cases hcr : (c == '\r') = true
    · rw [beq_iff_eq] at hcr
      subst hcr
      cases rest with
      | nil => rw [splitlinesGo_cr_nil]; simp
      | cons r2 rest2 =>
        by_cases hr2 : (r2 == '\n') = true
        · rw [beq_iff_eq] at hr2
          subst hr2
          rw [splitlinesGo_crlf]
          simp
        · rw [splitlinesGo_cr_other acc r2 rest2 (by simpa using hr2)]
          simp
    · by_cases hb : c ∈ lineBoundaryChars
      · rw [splitlinesGo_cons_boundary acc c rest (by simpa using hcr) hb]
        simp
      · rw [splitlinesGo_cons_plain acc c rest hb]
        exact ih (acc ++ [c]) (Or.inl (by simp))

theorem splitlinesGo_no_boundary (n : Nat) :
    ∀ (cs acc : List Char), cs.length ≤ n →
    (∀ c ∈ acc, c ∉ lineBoundaryChars) →
    ∀ l ∈ splitlinesGo acc cs, ∀ c ∈ l, c ∉ lineBoundaryChars := by
  induction n with
  | zero =>
    intro cs acc hlen hacc
    rw [List.length_eq_zero.mp (Nat.le_zero.mp hlen), splitlinesGo.eq_1]
    split
    · simp
    · intro l hl
      rw [List.mem_singleton.mp hl]
      exact hacc
  | succ n ih =>
    intro cs acc hlen hacc
    cases cs with
    | nil =>
      rw [splitlinesGo.eq_1]
      split
      · simp
      · intro l hl
        rw [List.mem_singleton.mp hl]
        exact hacc
    | cons c rest =>
      simp only [List.length_cons, Nat.succ_le_succ_iff] at hlen
      by_cases hcr : (c == '\r') = true
      · rw [beq_iff_eq] at hcr
        subst hcr
        cases rest with
        | nil =>
          rw [splitlinesGo_cr_nil]
          intro l hl
          rw [List.mem_singleton.mp hl]
          exact hacc
        | cons r2 rest2 =>
          simp only [List.length_cons] at hlen
          by_cases hr2 : (r2 == '\n') = true
          · rw [beq_iff_eq] at hr2
            subst hr2
            rw [splitlinesGo_crlf]
            intro l hl
            rcases List.mem_cons.mp hl with rfl | hl2
            · exact hacc
            · exact ih rest2 [] (by omega) (by simp) l hl2
          · rw [splitlinesGo_cr_other acc r2 rest2 (by simpa using hr2)]
            intro l hl
            rcases List.mem_cons.mp hl with rfl | hl2
            · exact hacc
            · exact ih (r2 :: rest2) [] (by simp; omega) (by simp) l hl2
      · by_cases hb : c ∈ lineBoundaryChars
        · rw [splitlinesGo_cons_boundary acc c rest (by simpa using hcr) hb]
          intro l hl
          rcases List.mem_cons.mp hl with rfl | hl2
          · exact hacc
          · exact ih rest [] hlen (by simp) l hl2
        · rw [splitlinesGo_cons_plain acc c rest hb]
          refine ih rest (acc ++ [c]) hlen ?_
          intro c2 hc2
          rcases List.mem_append.mp hc2 with hc3 | hc3
          · exact hacc c2 hc3
          · rw [List.mem_singleton.mp hc3]
            exact hb

theorem getLast?_cons_of_ne {α : Type} (c : α) (l : List α) (h : l ≠ []) :
    (c :: l).getLast? = l.getLast? := by
  cases l with
  | nil => exact absurd rfl h
  | cons a t => exact List.getLast?_cons_cons

theorem splitlinesGo_last_ne_nil (n : Nat) :
    ∀ (cs acc : List Char), cs.length ≤ n → cs ≠ [] →
    (∀ b ∈ lineBoundaryChars, cs.getLast? ≠ some b) →
    ∀ l, (splitlinesGo acc cs).getLast? = some l → l ≠ [] := by
  induction n with
  | zero =>
    intro cs acc hlen hne _
    exact absurd (List.length_eq_zero.mp (Nat.le_zero.mp hlen)) hne
  | succ n ih =>
    intro cs acc hlen hne hlast
    cases cs with
    | nil => exact absurd rfl hne
    | cons c rest =>
      simp only [List.length_cons, Nat.succ_le_succ_iff] at hlen
      cases hr : rest with
      | nil =>
        have hcb : c ∉ lineBoundaryChars := by
          intro hc
          exact hlast c hc (by rw [hr]; simp)
        rw [splitlinesGo_cons_plain acc c [] hcb, splitlinesGo.eq_1]
        have hne2 : (acc ++ [c]).isEmpty = false := by simp
        rw [hne2]
        simp only [Bool.false_eq_true, if_false]
        intro l hl
        simp only [List.getLast?_singleton, Option.some.injEq] at hl
        rw [← hl]
        simp
      | cons r2 rest2 =>
        have hrne : rest ≠ [] := by rw [hr]; simp
        have hrlast : ∀ b ∈ lineBoundaryChars, rest.getLast? ≠ some b := by
          intro b hb hc
          exact hlast b hb (by rw [getLast?_cons_of_ne c rest hrne]; exact hc)
        rw [hr] at hrlast hrne hlen
        simp only [List.length_cons] at hlen
        by_cases hcr : (c == '\r') = true
        · rw [beq_iff_eq] at hcr
          subst hcr
          by_cases hr2 : (r2 == '\n') = true
          · rw [beq_iff_eq] at hr2
            subst hr2
            cases hrest2 : rest2 with
            | nil =>
              exfalso
              refine hrlast '\n' (by decide) ?_
              rw [hrest2]
              simp
            | cons r3 rest3 =>
              rw [splitlinesGo_crlf]
              have hgo : splitlinesGo [] (r3 :: rest3) ≠ [] :=
                splitlinesGo_ne_nil (r3 :: rest3) [] (Or.inr (by simp))
              rw [getLast?_cons_of_ne acc _ hgo]
              refine ih (r3 :: rest3) [] ?_ (by simp) ?_
              · rw [hrest2] at hlen
                simp only [List.length_cons] at hlen ⊢
                omega
              · intro b hb hc
                refine hrlast b hb ?_
                rw [getLast?_cons_of_ne '\n' rest2 (by rw [hrest2]; simp),
                  hrest2]
                exact hc
          · rw [splitlinesGo_cr_other acc r2 rest2 (by simpa using hr2)]
            have hgo : splitlinesGo [] (r2 :: rest2) ≠ [] :=
              splitlinesGo_ne_nil (r2 :: rest2) [] (Or.inr (by simp))
            rw [getLast?_cons_of_ne acc _ hgo]
            exact ih (r2 :: rest2) [] (by simp; omega) (by simp) hrlast
        · by_cases hb : c ∈ lineBoundaryChars
          · rw [splitlinesGo_cons_boundary acc c (r2 :: rest2)
              (by simpa using hcr) hb]
            have hgo : splitlinesGo [] (r2 :: rest2) ≠ [] :=
              splitlinesGo_ne_nil (r2 :: rest2) [] (Or.inr (by simp))
            rw [getLast?_cons_of_ne acc _ hgo]
            exact ih (r2 :: rest2) [] (by simp; omega) (by simp) hrlast
          · rw [splitlinesGo_cons_plain acc c (r2 :: rest2) hb]
            exact ih (r2 :: rest2) (acc ++ [c]) (by simp; omega) (by simp) hrlast

theorem splitlinesPy_of_joinLines :
    ∀ (ls : List (List Char)), ls ≠ [] →
    (∀ l ∈ ls, ∀ c ∈ l, c ∉ lineBoundaryChars) →
    (∀ l, ls.getLast? = some l → l ≠ []) →
    splitlinesPy (joinLines ls) = ls := by
  intro ls
  induction ls with
  | nil => intro h; exact absurd rfl h
  | cons l ls2 ih =>
    intro _ hnb hlast
    cases ls2 with
    | nil =>
      have hlne : l ≠ [] := hlast l (by simp)
      unfold splitlinesPy
      have hj1 : joinLines [l] = l := rfl
      rw [hj1, splitlinesGo_all_plain l [] (hnb l (by simp))]
      simp [hlne]
    | cons l2 ls3 =>
      have hjoin : joinLines (l :: l2 :: ls3) =
          l ++ '\n' :: joinLines (l2 :: ls3) := rfl
      unfold splitlinesPy
      rw [hjoin, splitlinesGo_append l (hnb l (by simp)) [] _]
      simp only [List.nil_append]
      rw [splitlinesGo_cons_boundary l '\n' _ (by decide) (by decide)]
      have hih : splitlinesPy (joinLines (l2 :: ls3)) = l2 :: ls3 := by
        refine ih (by simp) ?_ ?_
        · intro l3 hl3
          exact hnb l3 (by simp [hl3])
        · intro l3 hl3
          refine hlast l3 ?_
          rw [getLast?_cons_of_ne l (l2 :: ls3) (by simp)]
          exact hl3
      unfold splitlinesPy at hih
      rw [hih]

/-! ## The amended idempotence claim for the re-indentation pass -/

theorem pyStrip_ne_nil_of_match (l m : List Char)
    (h : lineMarkerMatch l = some m) : pyStripChars l ≠ [] := by
  unfold lineMarkerMatch at h
  cases hf : (markerCandidates (l.dropWhile isSpaceChar)).find?
      (fun p => wordBoundaryAfter p.1 p.2) with
  | none => rw [hf] at h; exact absurd h (by simp)
  | some q =>
    have hmem : q ∈ markerCandidates (l.dropWhile isSpaceChar) :=
      List.mem_of_find?_eq_some hf
    obtain ⟨hmr, hmne, hmchars⟩ :=
      @markerCandidates_decomp (l.dropWhile isSpaceChar) q.1 q.2
        (by simpa using hmem)
    unfold pyStripChars
    rw [← hmr, rtrimWhile_append_clean isSpaceChar q.1 q.2
      (fun c hc => (hmchars c hc).1)]
    intro hcontra
    exact hmne (List.append_eq_nil.mp hcontra).1

theorem reindentLine_ne_nil (l : List Char) (h : l ≠ []) :
    reindentLine l ≠ [] := by
  unfold reindentLine
  cases hm : lineMarkerMatch l with
  | none => exact h
  | some m =>
    intro hcontra
    exact pyStrip_ne_nil_of_match l m hm (List.append_eq_nil.mp hcontra).2

theorem reindentLine_no_boundary (l : List Char)
    (h : ∀ c ∈ l, c ∉ lineBoundaryChars) :
    ∀ c ∈ reindentLine l, c ∉ lineBoundaryChars := by
  unfold reindentLine
  cases hm : lineMarkerMatch l with
  | none => exact h
  | some m =>
    intro c hc
    rcases List.mem_append.mp hc with hc2 | hc2
    · unfold marker_indent at hc2
      rw [List.eq_of_mem_replicate hc2]
      decide
    · exact h c (mem_pyStripChars_sub l hc2)

theorem map_reindentLine_idem (ls : List (List Char)) :
    ls.map (fun l => reindentLine (reindentLine l)) = ls.map reindentLine := by
  induction ls with
  | nil => rfl
  | cons a t ih => simp [reindentLine_idem, ih]

/-- C5 amended: the re-indentation pass is idempotent on every text that
does not end in a `splitlines` line-boundary character.  (For texts that do
— e.g. "a\n\n" — the split/join round trip drops the trailing empty
segment, so a second application can differ; see the counterexample.) -/
theorem claim_reindent_idem_amended (t : List Char)
    (h : endsInLineBoundary t = false) :
    apply_marker_indents (apply_marker_indents t) = apply_marker_indents t := by
  cases ht : t with
  | nil => rfl
  | cons c0 t0 =>
    rw [← ht]
    have htne : t ≠ [] := by rw [ht]; simp
    have hlastB : ∀ b ∈ lineBoundaryChars, t.getLast? ≠ some b := by
      intro b hb hc
      unfold endsInLineBoundary at h
      rw [hc] at h
      simp only at h
      rw [decide_eq_false_iff_not] at h
      exact h hb
    have hls_ne : splitlinesPy t ≠ [] := by
      unfold splitlinesPy
      exact splitlinesGo_ne_nil t [] (Or.inr htne)
    have hls_nb : ∀ l ∈ splitlinesPy t, ∀ c ∈ l, c ∉ lineBoundaryChars := by
      unfold splitlinesPy
      exact splitlinesGo_no_boundary t.length t [] (Nat.le_refl _) (by simp)
    have hls_last : ∀ l, (splitlinesPy t).getLast? = some l → l ≠ [] := by
      unfold splitlinesPy
      exact splitlinesGo_last_ne_nil t.length t [] (Nat.le_refl _) htne hlastB
    have hmap_ne : (splitlinesPy t).map reindentLine ≠ [] := by
      intro hcontra
      exact hls_ne (List.map_eq_nil_iff.mp hcontra)
    have hmap_nb : ∀ l ∈ (splitlinesPy t).map reindentLine,
        ∀ c ∈ l, c ∉ lineBoundaryChars := by
      intro l hl
      obtain ⟨l0, hl0, rfl⟩ := List.mem_map.mp hl
      exact reindentLine_no_boundary l0 (hls_nb l0 hl0)
    have hmap_last : ∀ l, ((splitlinesPy t).map reindentLine).getLast? = some l →
        l ≠ [] := by
      intro l hl
      rw [List.getLast?_map] at hl
      cases hg : (splitlinesPy t).getLast? with
      | none => rw [hg] at hl; exact absurd hl (by simp)
      | some l0 =>
        rw [hg] at hl
        simp only [Option.map_some', Option.some.injEq] at hl
        rw [← hl]
        exact reindentLine_ne_nil l0 (hls_last l0 hg)
    have hsplit : splitlinesPy (joinLines ((splitlinesPy t).map reindentLine)) =
        (splitlinesPy t).map reindentLine :=
      splitlinesPy_of_joinLines _ hmap_ne hmap_nb hmap_last
    unfold apply_marker_indents
    rw [applyLinesLoop_eq_map, applyLinesLoop_eq_map, hsplit,
      List.map_map]
    have hcomp : (splitlinesPy t).map (reindentLine ∘ reindentLine) =
        (splitlinesPy t).map reindentLine := by
      rw [show reindentLine ∘ reindentLine =
        (fun l => reindentLine (reindentLine l)) from rfl]
      exact map_reindentLine_idem _
    rw [hcomp]

/-- C5 amended witness: a text with markers and no trailing newline. -/
theorem claim_reindent_idem_amended_witness :
    endsInLineBoundary ("1.x" ++ "\n" ++ "  (5)y").data = false ∧
      apply_marker_indents (apply_marker_indents ("1.x" ++ "\n" ++ "  (5)y").data) =
        apply_marker_indents ("1.x" ++ "\n" ++ "  (5)y").data :=
  ⟨by decide, claim_reindent_idem_amended ("1.x" ++ "\n" ++ "  (5)y").data (by decide)⟩

/-! ## The statute text segmenter (`format_statute_text`, source 183–201)

The pattern
`([.,;:])\s+((?:and|or)\s+)?((?:\(?\d+[).]|\(?[A-Za-z]+[).]|\d+-[A-Za-z][).]?))\s+`
is matched with `re.IGNORECASE` and substituted.  Each `\s+` here is
followed (in every continuation the engine can take) by a character class
that excludes whitespace, so greedy maximal munch is exact; the marker
alternation is the shared `markerCandidates` list; `(?:and|or)` is tried
in order with the case-insensitive prefix test, and a branch whose
continuation fails falls through to the next, ending with the
conjunction-less branch. -/

/-- The punctuation class `[.,;:]`. -/
def isPunctChar (c : Char) : Bool := c == '.' || c == ',' || c == ';' || c == ':'

/-- Case-insensitive prefix test against a lowercase pattern
(`re.IGNORECASE` matching of a literal word). -/
def startsWithCI : List Char → List Char → Bool
  | [], _ => true
  | _ :: _, [] => false
  | p :: ps, c :: cs => (lowerAsciiChar c == p) && startsWithCI ps cs

/-- Does the list start with a whitespace character? (`\s+` can begin.) -/
def headIsSpace : List Char → Bool
  | c :: _ => isSpaceChar c
  | [] => false

/-- Does the list start with a non-whitespace character (or end)? -/
def headNotSpace : List Char → Bool
  | c :: _ => !isSpaceChar c
  | [] => true

/-- Finish the marker-group match: consume the required trailing `\s+`
(maximal munch). -/
def segAfterFind : Option (List Char × List Char) → Option (List Char × List Char)
  | some (m, rest) => some (m, rest.dropWhile isSpaceChar)
  | none => none

/-- The marker group followed by `\s+`: the first candidate whose suffix
starts with whitespace wins (engine order), and the whitespace run is
consumed. -/
def segMarkerMatch (cs : List Char) : Option (List Char × List Char) :=
  segAfterFind ((markerCandidates cs).find? (fun p => headIsSpace p.2))

/-- The replacement string built by `repl`: punctuation, optional
conjunction (stripped, after a space), newline, indent, marker, one
space. -/
def replChars (p : Char) (conj : Option (List Char)) (m : List Char) : List Char :=
  match conj with
  | some w => p :: ' ' :: (w ++ '\n' :: (marker_indent m ++ (m ++ [' '])))
  | none => p :: '\n' :: (marker_indent m ++ (m ++ [' ']))

/-- Wrap a marker-group result into a conjunction-branch match result. -/
def conjAfter (p : Char) (word : List Char) :
    Option (List Char × List Char) → Option (List Char × List Char)
  | some (m, rest) => some (replChars p (some word) m, rest)
  | none => none

/-- Wrap a marker-group result into a no-conjunction match result. -/
def noConjAfter (p : Char) :
    Option (List Char × List Char) → Option (List Char × List Char)
  | some (m, rest) => some (replChars p none m, rest)
  | none => none

/-- One conjunction branch: the word `w` (lowercase pattern) matched
case-insensitively, then `\s+` (required), then the marker group with its
trailing `\s+`.  Any failure yields `none` (the engine backtracks). -/
def conjTryAt (w : List Char) (p : Char) (cs2 : List Char) :
    Option (List Char × List Char) :=
  if startsWithCI w cs2 then
    if ((cs2.drop w.length).takeWhile isSpaceChar).isEmpty then none
    else conjAfter p (cs2.take w.length)
      (segMarkerMatch ((cs2.drop w.length).dropWhile isSpaceChar))
  else none

/-- Ordered alternative: the first success wins. -/
def firstSome (a b : Option (List Char × List Char)) :
    Option (List Char × List Char) :=
  match a with
  | some x => some x
  | none => b

/-- Attempt the whole pattern anchored at the head of `cs`.  On success,
returns the replacement text and the unconsumed suffix. -/
def tryMatchAt (cs : List Char) : Option (List Char × List Char) :=
  match cs with
  | [] => none
  | c :: cs1 =>
    if isPunctChar c then
      if (cs1.takeWhile isSpaceChar).isEmpty then none
      else
        firstSome (conjTryAt ['a', 'n', 'd'] c (cs1.dropWhile isSpaceChar))
          (firstSome (conjTryAt ['o', 'r'] c (cs1.dropWhile isSpaceChar))
            (noConjAfter c (segMarkerMatch (cs1.dropWhile isSpaceChar))))
    else none

/-- `pattern.sub(repl, text)`: left-to-right, non-overlapping scan.  The
fuel argument only bounds the recursion; `text.length` steps always
suffice because every step consumes at least one character. -/
def pySubFuel : Nat → List Char → List Char
  | 0, cs => cs
  | Nat.succ _, [] => []
  | Nat.succ n, c :: cs1 =>
    match tryMatchAt (c :: cs1) with
    | some (r, rest) => r ++ pySubFuel n rest
    | none => c :: pySubFuel n cs1

/-- `pattern.sub(repl, text)` with adequate fuel. -/
def pySub (cs : List Char) : List Char := pySubFuel cs.length cs

/-- `format_statute_text`: substitute at every match, then `.strip()`. -/
def format_statute_text (cs : List Char) : List Char :=
  pyStripChars (pySub cs)

/-- `format_statute_text` on `String`. -/
def formatStatuteTextS (s : String) : String := ⟨format_statute_text s.data⟩

/-- C2: segmenting the reference sentence breaks before "1." and "2.",
both at indent level 0 (bare digits with trailing period), and the
conjunction "or" stays at the end of the prior line, attached to the
comma. -/
theorem claim_segment_concrete :
    formatStatuteTextS "No person shall act unless, 1. licensed, or 2. exempt." =
      "No person shall act unless,\n1. licensed, or\n2. exempt." := by decide

/-! ## Markers the segmenter can capture

`MarkerShape m` says `m` is a string of one of the three shapes the marker
group can produce: optionally parenthesized digits plus a closer,
optionally parenthesized letters plus a closer, or digits-dash-letter with
an optional closer. -/

inductive MarkerShape : List Char → Prop where
  | digitsClose (par : Bool) (ds : List Char) (c : Char) :
      ds ≠ [] → (∀ d ∈ ds, isDigitChar d = true) → isCloseChar c = true →
      MarkerShape ((if par then ['('] else []) ++ ds ++ [c])
  | lettersClose (par : Bool) (ls : List Char) (c : Char) :
      ls ≠ [] → (∀ x ∈ ls, isAlphaChar x = true) → isCloseChar c = true →
      MarkerShape ((if par then ['('] else []) ++ ls ++ [c])
  | compound (ds : List Char) (a : Char) (copt : Option Char) :
      ds ≠ [] → (∀ d ∈ ds, isDigitChar d = true) → isAlphaChar a = true →
      (∀ c ∈ copt, isCloseChar c = true) →
      MarkerShape (ds ++ '-' :: a :: copt.toList)

/-- The strings `re.IGNORECASE` lets `(?:and|or)` match. -/
def conjVariants : List (List Char) :=
  [['a', 'n', 'd'], ['a', 'n', 'D'], ['a', 'N', 'd'], ['a', 'N', 'D'],
   ['A', 'n', 'd'], ['A', 'n', 'D'], ['A', 'N', 'd'], ['A', 'N', 'D'],
   ['o', 'r'], ['o', 'R'], ['O', 'r'], ['O', 'R']]

/-! ### Character-level helper lemmas -/

theorem lowerAscii_of_digit {c : Char} (h : isDigitChar c = true) :
    lowerAsciiChar c = c := by
  rw [isDigitChar, decide_eq_true_eq] at h
  rw [lowerAsciiChar, if_neg]
  simp only [Bool.and_eq_true, decide_eq_true_eq, not_and]
  omega

theorem digit_beq_vowel {c : Char} (h : isDigitChar c = true) :
    (lowerAsciiChar c == 'a') = false ∧ (lowerAsciiChar c == 'o') = false := by
  rw [lowerAscii_of_digit h]
  rw [isDigitChar, decide_eq_true_eq] at h
  constructor <;>
    (rw [beq_eq_false_iff_ne]; intro hc; exact absurd (hc ▸ h) (by decide))

theorem close_lower_facts {c : Char} (h : isCloseChar c = true) :
    (lowerAsciiChar c == 'n') = false ∧ (lowerAsciiChar c == 'd') = false ∧
      (lowerAsciiChar c == 'r') = false ∧ (c == '-') = false ∧
      isSpaceChar c = false := by
  rw [isCloseChar, Bool.or_eq_true, beq_iff_eq, beq_iff_eq] at h
  rcases h with rfl | rfl <;>
    exact ⟨by decide, by decide, by decide, by decide, by decide⟩

theorem markerShape_head {m : List Char} (h : MarkerShape m) :
    ∃ m0 mt, m = m0 :: mt ∧ isSpaceChar m0 = false := by
  cases h with
  | digitsClose par ds c hne hds hc =>
    obtain ⟨d0, ds2, rfl⟩ := List.exists_cons_of_ne_nil hne
    cases par with
    | true => exact ⟨'(', (d0 :: ds2) ++ [c], by simp, by decide⟩
    | false =>
      refine ⟨d0, ds2 ++ [c], by simp, ?_⟩
      exact (digit_char_facts (hds d0 (by simp))).1
  | lettersClose par ls c hne hls hc =>
    obtain ⟨l0, ls2, rfl⟩ := List.exists_cons_of_ne_nil hne
    cases par with
    | true => exact ⟨'(', (l0 :: ls2) ++ [c], by simp, by decide⟩
    | false =>
      refine ⟨l0, ls2 ++ [c], by simp, ?_⟩
      exact (alpha_char_facts (hls l0 (by simp))).1
  | compound ds a copt hne hds ha hcopt =>
    obtain ⟨d0, ds2, rfl⟩ := List.exists_cons_of_ne_nil hne
    refine ⟨d0, ds2 ++ '-' :: a :: copt.toList, by simp, ?_⟩
    exact (digit_char_facts (hds d0 (by simp))).1

/-! ### Evaluating the marker group on a captured marker -/

theorem takeWhile_run (p : Char → Bool) (run : List Char) (c : Char)
    (z : List Char) (hall : ∀ x ∈ run, p x = true) (hc : p c = false) :
    (run ++ c :: z).takeWhile p = run := by
  rw [takeWhile_append_all p run _ hall]
  simp [List.takeWhile_cons, hc]

theorem dropWhile_run (p : Char → Bool) (run : List Char) (c : Char)
    (z : List Char) (hall : ∀ x ∈ run, p x = true) (hc : p c = false) :
    (run ++ c :: z).dropWhile p = c :: z := by
  rw [dropWhile_append_all p run _ hall]
  simp [List.dropWhile_cons, hc]

theorem runClose_eval (test : Char → Bool) (run : List Char) (c : Char)
    (z : List Char) (hne : run ≠ []) (hall : ∀ x ∈ run, test x = true)
    (hcnot : test c = false) (hcl : isCloseChar c = true) :
    runClose test (run ++ c :: z) = some (run ++ [c], z) := by
  unfold runClose
  rw [takeWhile_run test run c z hall hcnot,
    dropWhile_run test run c z hall hcnot]
  rw [if_neg (by simp [hne])]
  rw [runCloseTail, if_pos hcl]

theorem runClose_none_of_head (test : Char → Bool) (c : Char) (z : List Char)
    (hc : test c = false) : runClose test (c :: z) = none := by
  unfold runClose
  rw [if_pos]
  simp [List.takeWhile_cons, hc]

theorem altCompoundTail_not_dash (ds : List Char) (c1 : Char) (z : List Char)
    (h : (c1 == '-') = false) : altCompoundTail ds (c1 :: z) = [] := by
  cases z with
  | nil => simp [altCompoundTail]
  | cons c2 z2 =>
    cases z2 with
    | nil => simp [altCompoundTail, h]
    | cons c3 z3 => simp [altCompoundTail, h]

theorem altCompound_none_head (c : Char) (z : List Char)
    (hc : isDigitChar c = false) : altCompound (c :: z) = [] := by
  unfold altCompound
  rw [if_pos]
  simp [List.takeWhile_cons, hc]

theorem find?_head_space_digits (par : Bool) (ds : List Char) (c : Char)
    (z : List Char) (hne : ds ≠ []) (hds : ∀ d ∈ ds, isDigitChar d = true)
    (hcl : isCloseChar c = true) :
    (markerCandidates (((if par then ['('] else []) ++ ds ++ [c]) ++ ' ' :: z)).find?
        (fun p => headIsSpace p.2) =
      some ((if par then ['('] else []) ++ ds ++ [c], ' ' :: z) := by
  have hcd : isDigitChar c = false := (close_char_facts hcl).2.1
  obtain ⟨d0, ds2, hds0⟩ := List.exists_cons_of_ne_nil hne
  have hd0 := digit_char_facts (hds d0 (by rw [hds0]; simp))
  unfold markerCandidates
  cases par with
  | true =>
    have hshape : ((if true then ['('] else []) ++ ds ++ [c]) ++ ' ' :: z
        = '(' :: (ds ++ c :: ' ' :: z) := by simp
    rw [hshape]
    have h1 : altParenRun isDigitChar ('(' :: (ds ++ c :: ' ' :: z)) =
        some ('(' :: (ds ++ [c]), ' ' :: z) := by
      unfold altParenRun
      rw [if_pos (by simp)]
      simp only [List.tail_cons]
      rw [runClose_eval isDigitChar ds c (' ' :: z) hne hds hcd hcl]
      rfl
    have h2 : altParenRun isAlphaChar ('(' :: (ds ++ c :: ' ' :: z)) = none := by
      unfold altParenRun
      rw [if_pos (by simp)]
      simp only [List.tail_cons]
      rw [hds0, List.cons_append, runClose_none_of_head isAlphaChar d0 _ hd0.2.1]
      rfl
    have h3 : altCompound ('(' :: (ds ++ c :: ' ' :: z)) = [] :=
      altCompound_none_head '(' _ (by decide)
    rw [h1, h2, h3]
    rfl
  | false =>
    have hshape : ((if false then ['('] else []) ++ ds ++ [c]) ++ ' ' :: z
        = ds ++ c :: ' ' :: z := by simp
    rw [hshape]
    have hhd : ((ds ++ c :: ' ' :: z).headD ' ' == '(') = false := by
      rw [hds0]
      simp only [List.cons_append, List.headD_cons]
      rw [beq_eq_false_iff_ne]
      intro hcontra
      have hdig : isDigitChar d0 = true := hds d0 (by rw [hds0]; simp)
      rw [hcontra] at hdig
      exact absurd hdig (by decide)
    have h1 : altParenRun isDigitChar (ds ++ c :: ' ' :: z) =
        some (ds ++ [c], ' ' :: z) := by
      unfold altParenRun
      rw [if_neg (by rw [hhd]; simp)]
      exact runClose_eval isDigitChar ds c (' ' :: z) hne hds hcd hcl
    have h2 : altParenRun isAlphaChar (ds ++ c :: ' ' :: z) = none := by
      unfold altParenRun
      rw [if_neg (by rw [hhd]; simp)]
      rw [hds0, List.cons_append, runClose_none_of_head isAlphaChar d0 _ hd0.2.1]
    have h3 : altCompound (ds ++ c :: ' ' :: z) = [] := by
      unfold altCompound
      rw [takeWhile_run isDigitChar ds c _ hds hcd,
        dropWhile_run isDigitChar ds c _ hds hcd]
      rw [if_neg (by simp [hne])]
      exact altCompoundTail_not_dash ds c _ (close_lower_facts hcl).2.2.2.1
    rw [h1, h2, h3]
    rfl

theorem find?_head_space_letters (par : Bool) (ls : List Char) (c : Char)
    (z : List Char) (hne : ls ≠ []) (hls : ∀ x ∈ ls, isAlphaChar x = true)
    (hcl : isCloseChar c = true) :
    (markerCandidates (((if par then ['('] else []) ++ ls ++ [c]) ++ ' ' :: z)).find?
        (fun p => headIsSpace p.2) =
      some ((if par then ['('] else []) ++ ls ++ [c], ' ' :: z) := by
  have hca : isAlphaChar c = false := (close_char_facts hcl).2.2.1
  obtain ⟨l0, ls2, hls0⟩ := List.exists_cons_of_ne_nil hne
  have hl0 := alpha_char_facts (hls l0 (by rw [hls0]; simp))
  unfold markerCandidates
  cases par with
  | true =>
    have hshape : ((if true then ['('] else []) ++ ls ++ [c]) ++ ' ' :: z
        = '(' :: (ls ++ c :: ' ' :: z) := by simp
    rw [hshape]
    have h1 : altParenRun isDigitChar ('(' :: (ls ++ c :: ' ' :: z)) = none := by
      unfold altParenRun
      rw [if_pos (by simp)]
      simp only [List.tail_cons]
      rw [hls0, List.cons_append, runClose_none_of_head isDigitChar l0 _ hl0.2.1]
      rfl
    have h2 : altParenRun isAlphaChar ('(' :: (ls ++ c :: ' ' :: z)) =
        some ('(' :: (ls ++ [c]), ' ' :: z) := by
      unfold altParenRun
      rw [if_pos (by simp)]
      simp only [List.tail_cons]
      rw [runClose_eval isAlphaChar ls c (' ' :: z) hne hls hca hcl]
      rfl
    have h3 : altCompound ('(' :: (ls ++ c :: ' ' :: z)) = [] :=
      altCompound_none_head '(' _ (by decide)
    rw [h1, h2, h3]
    rfl
  | false =>
    have hshape : ((if false then ['('] else []) ++ ls ++ [c]) ++ ' ' :: z
        = ls ++ c :: ' ' :: z := by simp
    rw [hshape]
    have hhd : ((ls ++ c :: ' ' :: z).headD ' ' == '(') = false := by
      rw [hls0]
      simp only [List.cons_append, List.headD_cons]
      rw [beq_eq_false_iff_ne]
      intro hcontra
      have halp : isAlphaChar l0 = true := hls l0 (by rw [hls0]; simp)
      rw [hcontra] at halp
      exact absurd halp (by decide)
    have h1 : altParenRun isDigitChar (ls ++ c :: ' ' :: z) = none := by
      unfold altParenRun
      rw [if_neg (by rw [hhd]; simp)]
      rw [hls0, List.cons_append, runClose_none_of_head isDigitChar l0 _ hl0.2.1]
    have h2 : altParenRun isAlphaChar (ls ++ c :: ' ' :: z) =
        some (ls ++ [c], ' ' :: z) := by
      unfold altParenRun
      rw [if_neg (by rw [hhd]; simp)]
      exact runClose_eval isAlphaChar ls c (' ' :: z) hne hls hca hcl
    have h3 : altCompound (ls ++ c :: ' ' :: z) = [] := by
      rw [hls0, List.cons_append]
      exact altCompound_none_head l0 _ hl0.2.1
    rw [h1, h2, h3]
    rfl

theorem find?_head_space_compound (ds : List Char) (a : Char)
    (copt : Option Char) (z : List Char) (hne : ds ≠ [])
    (hds : ∀ d ∈ ds, isDigitChar d = true) (ha : isAlphaChar a = true)
    (hcopt : ∀ c ∈ copt, isCloseChar c = true) :
    (markerCandidates ((ds ++ '-' :: a :: copt.toList) ++ ' ' :: z)).find?
        (fun p => headIsSpace p.2) =
      some (ds ++ '-' :: a :: copt.toList, ' ' :: z) := by
  obtain ⟨d0, ds2, hds0⟩ := List.exists_cons_of_ne_nil hne
  have hd0 := digit_char_facts (hds d0 (by rw [hds0]; simp))
  have hdashd : isDigitChar '-' = false := by decide
  have hshape : (ds ++ '-' :: a :: copt.toList) ++ ' ' :: z
      = ds ++ '-' :: (a :: copt.toList ++ ' ' :: z) := by simp
  unfold markerCandidates
  rw [hshape]
  have hhd : ((ds ++ '-' :: (a :: copt.toList ++ ' ' :: z)).headD ' ' == '(')
      = false := by
    rw [hds0]
    simp only [List.cons_append, List.headD_cons]
    rw [beq_eq_false_iff_ne]
    intro hcontra
    have hdig : isDigitChar d0 = true := hds d0 (by rw [hds0]; simp)
    rw [hcontra] at hdig
    exact absurd hdig (by decide)
  have h1 : altParenRun isDigitChar (ds ++ '-' :: (a :: copt.toList ++ ' ' :: z))
      = none := by
    unfold altParenRun
    rw [if_neg (by rw [hhd]; simp)]
    unfold runClose
    rw [takeWhile_run isDigitChar ds '-' _ hds hdashd,
      dropWhile_run isDigitChar ds '-' _ hds hdashd]
    rw [if_neg (by simp [hne])]
    rw [runCloseTail, if_neg (by decide)]
  have h2 : altParenRun isAlphaChar (ds ++ '-' :: (a :: copt.toList ++ ' ' :: z))
      = none := by
    unfold altParenRun
    rw [if_neg (by rw [hhd]; simp)]
    rw [hds0, List.cons_append, runClose_none_of_head isAlphaChar d0 _ hd0.2.1]
  have h3 : altCompound (ds ++ '-' :: (a :: copt.toList ++ ' ' :: z)) =
      (match copt with
       | some c => [(ds ++ ['-', a, c], ' ' :: z), (ds ++ ['-', a], c :: ' ' :: z)]
       | none => [(ds ++ ['-', a], ' ' :: z)]) := by
    unfold altCompound
    rw [takeWhile_run isDigitChar ds '-' _ hds hdashd,
      dropWhile_run isDigitChar ds '-' _ hds hdashd]
    rw [if_neg (by simp [hne])]
    cases copt with
    | none =>
      simp only [Option.toList_none, List.cons_append, List.nil_append]
      rw [altCompoundTail.eq_1, if_pos (by simp [ha]), if_neg (by decide)]
    | some c =>
      simp only [Option.toList_some, List.cons_append, List.singleton_append]
      rw [altCompoundTail.eq_1, if_pos (by simp [ha]),
        if_pos (hcopt c (by simp))]
      simp
  rw [h1, h2, h3]
  cases copt with
  | none => rfl
  | some c => rfl

/-- Evaluating `segMarkerMatch` on a captured marker followed by a space:
the candidate search returns the same marker, and the trailing `\s+` is
exactly that one space when `T` does not begin with whitespace. -/
theorem segMarkerMatch_marker (m T : List Char) (hm : MarkerShape m)
    (hT : headNotSpace T = true) :
    segMarkerMatch (m ++ ' ' :: T) = some (m, T) := by
  have hdropT : (' ' :: T).dropWhile isSpaceChar = T := by
    rw [List.dropWhile_cons]
    simp only [show isSpaceChar ' ' = true from by decide, if_true]
    cases T with
    | nil => rfl
    | cons t0 T2 =>
      rw [headNotSpace] at hT
      rw [List.dropWhile_cons]
      simp only [Bool.not_eq_true'] at hT
      simp [hT]
  unfold segMarkerMatch
  cases hm with
  | digitsClose par ds c hne hds hcl =>
    rw [find?_head_space_digits par ds c T hne hds hcl, segAfterFind, hdropT]
  | lettersClose par ls c hne hls hcl =>
    rw [find?_head_space_letters par ls c T hne hls hcl, segAfterFind, hdropT]
  | compound ds a copt hne hds ha hcopt =>
    rw [find?_head_space_compound ds a copt T hne hds ha hcopt, segAfterFind,
      hdropT]

/-! ## The conjunction branches on a captured occurrence -/

theorem startsWithCI_cons_false (p0 : Char) (ps : List Char) (c : Char)
    (z : List Char) (h : (lowerAsciiChar c == p0) = false) :
    startsWithCI (p0 :: ps) (c :: z) = false := by
  rw [startsWithCI, h, Bool.false_and]

theorem marker_indent_space (m : List Char) :
    ∀ c ∈ marker_indent m, isSpaceChar c = true := by
  intro c hc
  unfold marker_indent at hc
  rw [List.eq_of_mem_replicate hc]
  decide

/-- Splitting the leading `\s+` run of a no-conjunction replacement tail:
the whitespace is the newline plus the indent, and the rest starts at the
marker. -/
theorem space_split_marker (ind m T : List Char)
    (hind : ∀ c ∈ ind, isSpaceChar c = true) (hm : MarkerShape m) :
    ('\n' :: (ind ++ (m ++ ' ' :: T))).takeWhile isSpaceChar = '\n' :: ind ∧
      ('\n' :: (ind ++ (m ++ ' ' :: T))).dropWhile isSpaceChar =
        m ++ ' ' :: T := by
  obtain ⟨m0, mt, hm0, hm0sp⟩ := markerShape_head hm
  constructor
  · rw [List.takeWhile_cons]
    simp only [show isSpaceChar '\n' = true from by decide, if_true]
    rw [takeWhile_append_all isSpaceChar ind _ hind, hm0, List.cons_append,
      List.takeWhile_cons]
    simp [hm0sp]
  · rw [List.dropWhile_cons]
    simp only [show isSpaceChar '\n' = true from by decide, if_true]
    rw [dropWhile_append_all isSpaceChar ind _ hind, hm0, List.cons_append,
      List.dropWhile_cons]
    simp only [hm0sp, Bool.false_eq_true, if_false]

/-- On a captured marker occurrence the optional conjunction group cannot
fire: either the case-insensitive word test fails at the marker's first
characters, or the word is a prefix of the marker's letters and the
mandatory `\s+` after it fails inside the marker. -/
theorem conjTryAt_marker_none (w : List Char) (p : Char) (m T : List Char)
    (hw : w = ['a', 'n', 'd'] ∨ w = ['o', 'r']) (hm : MarkerShape m) :
    conjTryAt w p (m ++ ' ' :: T) = none := by
  have hno_head : ∀ (c0 : Char) (z : List Char),
      (lowerAsciiChar c0 == 'a') = false → (lowerAsciiChar c0 == 'o') = false →
      conjTryAt w p (c0 :: z) = none := by
    intro c0 z ha ho
    rcases hw with rfl | rfl
    · rw [conjTryAt, if_neg (by rw [startsWithCI_cons_false 'a' _ c0 z ha]; simp)]
    · rw [conjTryAt, if_neg (by rw [startsWithCI_cons_false 'o' _ c0 z ho]; simp)]
  cases hm with
  | digitsClose par ds c hne hds hcl =>
    obtain ⟨d0, ds2, rfl⟩ := List.exists_cons_of_ne_nil hne
    have hd0 := digit_beq_vowel (hds d0 (by simp))
    cases par with
    | true =>
      have hshape : ((if true then ['('] else []) ++ (d0 :: ds2) ++ [c]) ++ ' ' :: T
          = '(' :: (d0 :: ds2 ++ c :: ' ' :: T) := by simp
      rw [hshape]
      exact hno_head '(' _ (by decide) (by decide)
    | false =>
      have hshape : ((if false then ['('] else []) ++ (d0 :: ds2) ++ [c]) ++ ' ' :: T
          = d0 :: (ds2 ++ c :: ' ' :: T) := by simp
      rw [hshape]
      exact hno_head d0 _ hd0.1 hd0.2
  | compound ds a copt hne hds ha hcopt =>
    obtain ⟨d0, ds2, rfl⟩ := List.exists_cons_of_ne_nil hne
    have hd0 := digit_beq_vowel (hds d0 (by simp))
    have hshape : ((d0 :: ds2) ++ '-' :: a :: copt.toList) ++ ' ' :: T
        = d0 :: (ds2 ++ '-' :: a :: (copt.toList ++ ' ' :: T)) := by simp
    rw [hshape]
    exact hno_head d0 _ hd0.1 hd0.2
  | lettersClose par ls c hne hls hcl =>
    have hclf := close_lower_facts hcl
    cases par with
    | true =>
      obtain ⟨l0, ls2, rfl⟩ := List.exists_cons_of_ne_nil hne
      have hshape : ((if true then ['('] else []) ++ (l0 :: ls2) ++ [c]) ++ ' ' :: T
          = '(' :: (l0 :: ls2 ++ c :: ' ' :: T) := by simp
      rw [hshape]
      exact hno_head '(' _ (by decide) (by decide)
    | false =>
      obtain ⟨l1, ls1, rfl⟩ := List.exists_cons_of_ne_nil hne
      rcases hw with rfl | rfl
      · cases ls1 with
        | nil =>
          have hshape : ((if false then ['('] else []) ++ [l1] ++ [c]) ++ ' ' :: T
              = l1 :: c :: ' ' :: T := by simp
          rw [hshape, conjTryAt, if_neg]
          rw [startsWithCI, startsWithCI, hclf.1]
          simp
        | cons l2 ls2 =>
          cases ls2 with
          | nil =>
            have hshape : ((if false then ['('] else []) ++ [l1, l2] ++ [c]) ++ ' ' :: T
                = l1 :: l2 :: c :: ' ' :: T := by simp
            rw [hshape, conjTryAt, if_neg]
            rw [startsWithCI, startsWithCI, startsWithCI, hclf.2.1]
            simp
          | cons l3 ls3 =>
            have hshape : ((if false then ['('] else []) ++ (l1 :: l2 :: l3 :: ls3) ++ [c]) ++ ' ' :: T
                = l1 :: l2 :: l3 :: (ls3 ++ c :: ' ' :: T) := by simp
            rw [hshape]
            by_cases hsw : startsWithCI ['a', 'n', 'd']
                (l1 :: l2 :: l3 :: (ls3 ++ c :: ' ' :: T)) = true
            · rw [conjTryAt, if_pos hsw, if_pos]
              have hdrop : (l1 :: l2 :: l3 :: (ls3 ++ c :: ' ' :: T)).drop
                  (['a', 'n', 'd'].length) = ls3 ++ c :: ' ' :: T := rfl
              rw [hdrop]
              cases ls3 with
              | nil =>
                simp only [List.nil_append, List.takeWhile_cons,
                  hclf.2.2.2.2]
                simp
              | cons l4 ls4 =>
                have hl4 : isSpaceChar l4 = false :=
                  (alpha_char_facts (hls l4 (by simp))).1
                simp only [List.cons_append, List.takeWhile_cons, hl4]
                simp
            · rw [conjTryAt, if_neg hsw]
      · cases ls1 with
        | nil =>
          have hshape : ((if false then ['('] else []) ++ [l1] ++ [c]) ++ ' ' :: T
              = l1 :: c :: ' ' :: T := by simp
          rw [hshape, conjTryAt, if_neg]
          rw [startsWithCI, startsWithCI, hclf.2.2.1]
          simp
        | cons l2 ls2 =>
          have hshape : ((if false then ['('] else []) ++ (l1 :: l2 :: ls2) ++ [c]) ++ ' ' :: T
              = l1 :: l2 :: (ls2 ++ c :: ' ' :: T) := by simp
          rw [hshape]
          by_cases hsw : startsWithCI ['o', 'r']
              (l1 :: l2 :: (ls2 ++ c :: ' ' :: T)) = true
          · rw [conjTryAt, if_pos hsw, if_pos]
            have hdrop : (l1 :: l2 :: (ls2 ++ c :: ' ' :: T)).drop
                (['o', 'r'].length) = ls2 ++ c :: ' ' :: T := rfl
            rw [hdrop]
            cases ls2 with
            | nil =>
              simp only [List.nil_append, List.takeWhile_cons, hclf.2.2.2.2]
              simp
            | cons l3 ls3 =>
              have hl3 : isSpaceChar l3 = false :=
                (alpha_char_facts (hls l3 (by simp))).1
              simp only [List.cons_append, List.takeWhile_cons, hl3]
              simp
          · rw [conjTryAt, if_neg hsw]

/-! ## A captured occurrence re-matches as itself -/

theorem space_split_word (w R : List Char) (hne : w ≠ [])
    (hw : headIsSpace w = false) :
    (' ' :: (w ++ R)).takeWhile isSpaceChar = [' '] ∧
      (' ' :: (w ++ R)).dropWhile isSpaceChar = w ++ R := by
  obtain ⟨c0, z, rfl⟩ := List.exists_cons_of_ne_nil hne
  rw [headIsSpace] at hw
  constructor
  · rw [List.takeWhile_cons]
    simp only [show isSpaceChar ' ' = true from by decide, if_true]
    rw [List.cons_append, List.takeWhile_cons]
    simp [hw]
  · rw [List.dropWhile_cons]
    simp only [show isSpaceChar ' ' = true from by decide, if_true]
    rw [List.cons_append, List.dropWhile_cons]
    simp [hw]

/-- A conjunction branch whose word test succeeds on a captured occurrence
returns the full replacement: the matched word, the marker, and the suffix
after the single separating space. -/
theorem conjTryAt_variant (wp w : List Char) (p : Char) (m T : List Char)
    (hm : MarkerShape m) (hT : headNotSpace T = true)
    (hlen : wp.length = w.length)
    (hsw : startsWithCI wp
      (w ++ '\n' :: (marker_indent m ++ (m ++ ' ' :: T))) = true) :
    conjTryAt wp p (w ++ '\n' :: (marker_indent m ++ (m ++ ' ' :: T))) =
      some (replChars p (some w) m, T) := by
  rw [conjTryAt, if_pos hsw]
  have hdrop : (w ++ '\n' :: (marker_indent m ++ (m ++ ' ' :: T))).drop wp.length
      = '\n' :: (marker_indent m ++ (m ++ ' ' :: T)) := by
    rw [hlen, List.drop_left]
  have htake : (w ++ '\n' :: (marker_indent m ++ (m ++ ' ' :: T))).take wp.length
      = w := by
    rw [hlen, List.take_left]
  obtain ⟨htk, hdr⟩ :=
    space_split_marker (marker_indent m) m T (marker_indent_space m) hm
  rw [hdrop, htake, htk, hdr]
  rw [if_neg (by simp)]
  rw [segMarkerMatch_marker m T hm hT]
  rfl

/-- Re-matching a no-conjunction replacement: the anchored attempt at its
first character captures exactly the replacement and leaves the suffix. -/
theorem tryMatchAt_repl_none (p : Char) (m T : List Char)
    (hp : isPunctChar p = true) (hm : MarkerShape m)
    (hT : headNotSpace T = true) :
    tryMatchAt (replChars p none m ++ T) = some (replChars p none m, T) := by
  have hnorm : replChars p none m ++ T
      = p :: ('\n' :: (marker_indent m ++ (m ++ ' ' :: T))) := by
    simp [replChars]
  rw [hnorm, tryMatchAt, if_pos hp]
  obtain ⟨htk, hdr⟩ :=
    space_split_marker (marker_indent m) m T (marker_indent_space m) hm
  rw [if_neg (by rw [htk]; simp)]
  rw [hdr]
  rw [conjTryAt_marker_none ['a', 'n', 'd'] p m T (Or.inl rfl) hm]
  rw [conjTryAt_marker_none ['o', 'r'] p m T (Or.inr rfl) hm]
  rw [segMarkerMatch_marker m T hm hT]
  rfl

/-- Re-matching an `and`-conjunction replacement. -/
theorem tryMatchAt_repl_and (p : Char) (w m T : List Char)
    (hp : isPunctChar p = true) (hm : MarkerShape m)
    (hT : headNotSpace T = true)
    (hne : w ≠ []) (hwh : headIsSpace w = false) (hlen : w.length = 3)
    (hsw : startsWithCI ['a', 'n', 'd']
      (w ++ '\n' :: (marker_indent m ++ (m ++ ' ' :: T))) = true) :
    tryMatchAt (replChars p (some w) m ++ T) =
      some (replChars p (some w) m, T) := by
  have hnorm : replChars p (some w) m ++ T
      = p :: (' ' :: (w ++ '\n' :: (marker_indent m ++ (m ++ ' ' :: T)))) := by
    simp [replChars]
  rw [hnorm, tryMatchAt, if_pos hp]
  obtain ⟨htk, hdr⟩ :=
    space_split_word w ('\n' :: (marker_indent m ++ (m ++ ' ' :: T))) hne hwh
  rw [if_neg (by rw [htk]; simp)]
  rw [hdr]
  rw [conjTryAt_variant ['a', 'n', 'd'] w p m T hm hT (by simp [hlen]) hsw]
  rfl

/-- Re-matching an `or`-conjunction replacement: the `and` branch fails its
word test and the `or` branch captures. -/
theorem tryMatchAt_repl_or (p : Char) (w m T : List Char)
    (hp : isPunctChar p = true) (hm : MarkerShape m)
    (hT : headNotSpace T = true)
    (hne : w ≠ []) (hwh : headIsSpace w = false) (hlen : w.length = 2)
    (hswa : startsWithCI ['a', 'n', 'd']
      (w ++ '\n' :: (marker_indent m ++ (m ++ ' ' :: T))) = false)
    (hsw : startsWithCI ['o', 'r']
      (w ++ '\n' :: (marker_indent m ++ (m ++ ' ' :: T))) = true) :
    tryMatchAt (replChars p (some w) m ++ T) =
      some (replChars p (some w) m, T) := by
  have hnorm : replChars p (some w) m ++ T
      = p :: (' ' :: (w ++ '\n' :: (marker_indent m ++ (m ++ ' ' :: T)))) := by
    simp [replChars]
  rw [hnorm, tryMatchAt, if_pos hp]
  obtain ⟨htk, hdr⟩ :=
    space_split_word w ('\n' :: (marker_indent m ++ (m ++ ' ' :: T))) hne hwh
  rw [if_neg (by rw [htk]; simp)]
  rw [hdr]
  have handn : conjTryAt ['a', 'n', 'd'] p
      (w ++ '\n' :: (marker_indent m ++ (m ++ ' ' :: T))) = none := by
    rw [conjTryAt, if_neg (by rw [hswa]; simp)]
  rw [handn]
  rw [conjTryAt_variant ['o', 'r'] w p m T hm hT (by simp [hlen]) hsw]
  rfl

/-- Anchored at a previously emitted replacement, the pattern captures
exactly that replacement again and leaves the original suffix. -/
theorem tryMatchAt_repl (p : Char) (conj : Option (List Char)) (m T : List Char)
    (hp : isPunctChar p = true) (hm : MarkerShape m) (hT : headNotSpace T = true)
    (hconj : ∀ w, conj = some w → w ∈ conjVariants) :
    tryMatchAt (replChars p conj m ++ T) = some (replChars p conj m, T) := by
  cases conj with
  | none => exact tryMatchAt_repl_none p m T hp hm hT
  | some w =>
    have hw := hconj w rfl
    simp only [conjVariants, List.mem_cons, List.not_mem_nil, or_false] at hw
    rcases hw with rfl | rfl | rfl | rfl | rfl | rfl | rfl | rfl | rfl | rfl | rfl | rfl
    all_goals first
      | exact tryMatchAt_repl_and p _ m T hp hm hT (by decide) (by decide)
          (by decide)
          (by simp only [List.cons_append, List.nil_append, startsWithCI]; decide)
      | exact tryMatchAt_repl_or p _ m T hp hm hT (by decide) (by decide)
          (by decide)
          (by simp only [List.cons_append, List.nil_append, startsWithCI]; decide)
          (by simp only [List.cons_append, List.nil_append, startsWithCI]; decide)

/-! ## The substitution scan consumes a match and moves on -/

theorem dropWhile_length_le (p : Char → Bool) (l : List Char) :
    (l.dropWhile p).length ≤ l.length := by
  induction l with
  | nil => simp
  | cons a l ih =>
    rw [List.dropWhile_cons]
    by_cases h : p a = true
    · rw [if_pos h, List.length_cons]; omega
    · rw [if_neg h]

theorem segMarkerMatch_le {cs mk rest : List Char}
    (h : segMarkerMatch cs = some (mk, rest)) : rest.length ≤ cs.length := by
  rw [segMarkerMatch] at h
  cases hf : (markerCandidates cs).find? (fun q => headIsSpace q.2) with
  | none => rw [hf] at h; simp [segAfterFind] at h
  | some q =>
    obtain ⟨mq, rq⟩ := q
    rw [hf, segAfterFind] at h
    simp only [Option.some.injEq, Prod.mk.injEq] at h
    obtain ⟨-, h2⟩ := h
    obtain ⟨hdecomp, -, -⟩ :=
      markerCandidates_decomp (List.mem_of_find?_eq_some hf)
    have h3 : (rq.dropWhile isSpaceChar).length ≤ rq.length :=
      dropWhile_length_le isSpaceChar rq
    have h4 : mq.length + rq.length = cs.length := by
      rw [← hdecomp, List.length_append]
    rw [← h2]
    omega

theorem conjTryAt_le {w : List Char} {p : Char} {cs2 r rest : List Char}
    (h : conjTryAt w p cs2 = some (r, rest)) : rest.length ≤ cs2.length := by
  rw [conjTryAt] at h
  by_cases h1 : startsWithCI w cs2 = true
  · rw [if_pos h1] at h
    by_cases h2 : ((cs2.drop w.length).takeWhile isSpaceChar).isEmpty = true
    · rw [if_pos h2] at h; exact absurd h (by simp)
    · rw [if_neg h2] at h
      cases hs : segMarkerMatch ((cs2.drop w.length).dropWhile isSpaceChar) with
      | none => rw [hs] at h; simp [conjAfter] at h
      | some q =>
        obtain ⟨mq, rq⟩ := q
        rw [hs, conjAfter] at h
        simp only [Option.some.injEq, Prod.mk.injEq] at h
        obtain ⟨-, h3⟩ := h
        have h4 := segMarkerMatch_le hs
        have h5 : ((cs2.drop w.length).dropWhile isSpaceChar).length ≤
            (cs2.drop w.length).length :=
          dropWhile_length_le isSpaceChar (cs2.drop w.length)
        have h6 : (cs2.drop w.length).length ≤ cs2.length := by
          rw [List.length_drop]; omega
        rw [← h3]
        omega
  · rw [if_neg h1] at h; exact absurd h (by simp)

theorem tryMatchAt_lt {cs r rest : List Char}
    (h : tryMatchAt cs = some (r, rest)) : rest.length < cs.length := by
  cases cs with
  | nil => rw [tryMatchAt] at h; exact absurd h (by simp)
  | cons c cs1 =>
    rw [tryMatchAt] at h
    by_cases hp : isPunctChar c = true
    · rw [if_pos hp] at h
      by_cases he : (cs1.takeWhile isSpaceChar).isEmpty = true
      · rw [if_pos he] at h; exact absurd h (by simp)
      · rw [if_neg he] at h
        have hdw : (cs1.dropWhile isSpaceChar).length ≤ cs1.length :=
          dropWhile_length_le isSpaceChar cs1
        cases ha : conjTryAt ['a', 'n', 'd'] c (cs1.dropWhile isSpaceChar) with
        | some qa =>
          obtain ⟨ra, resta⟩ := qa
          rw [ha, firstSome] at h
          simp only [Option.some.injEq, Prod.mk.injEq] at h
          obtain ⟨-, hr⟩ := h
          have := conjTryAt_le ha
          rw [← hr, List.length_cons]
          omega
        | none =>
          rw [ha, firstSome] at h
          cases hb : conjTryAt ['o', 'r'] c (cs1.dropWhile isSpaceChar) with
          | some qb =>
            obtain ⟨rb, restb⟩ := qb
            rw [hb, firstSome] at h
            simp only [Option.some.injEq, Prod.mk.injEq] at h
            obtain ⟨-, hr⟩ := h
            have := conjTryAt_le hb
            rw [← hr, List.length_cons]
            omega
          | none =>
            rw [hb, firstSome] at h
            cases hs : segMarkerMatch (cs1.dropWhile isSpaceChar) with
            | none => rw [hs] at h; simp [noConjAfter] at h
            | some qs =>
              obtain ⟨ms, rests⟩ := qs
              rw [hs, noConjAfter] at h
              simp only [Option.some.injEq, Prod.mk.injEq] at h
              obtain ⟨-, hr⟩ := h
              have := segMarkerMatch_le hs
              rw [← hr, List.length_cons]
              omega
    · rw [if_neg hp] at h; exact absurd h (by simp)

/-- The fuel argument of the scan is irrelevant once it covers the input
length: every step strictly consumes input. -/
theorem pySubFuel_congr :
    ∀ (n k : Nat) (cs : List Char), cs.length ≤ n → cs.length ≤ k →
      pySubFuel n cs = pySubFuel k cs := by
  intro n
  induction n with
  | zero =>
    intro k cs hn _
    have hnil : cs = [] := List.eq_nil_of_length_eq_zero (Nat.le_zero.mp hn)
    subst hnil
    cases k <;> rfl
  | succ n ih =>
    intro k cs hn hk
    cases cs with
    | nil => cases k <;> rfl
    | cons c cs1 =>
      cases k with
      | zero => simp [List.length_cons] at hk
      | succ k2 =>
        rw [pySubFuel, pySubFuel]
        cases hmatch : tryMatchAt (c :: cs1) with
        | none =>
          show c :: pySubFuel n cs1 = c :: pySubFuel k2 cs1
          rw [ih k2 cs1 (by simp [List.length_cons] at hn; omega)
            (by simp [List.length_cons] at hk; omega)]
        | some q =>
          obtain ⟨r, rest⟩ := q
          show r ++ pySubFuel n rest = r ++ pySubFuel k2 rest
          have hlt := tryMatchAt_lt hmatch
          rw [ih k2 rest (by simp [List.length_cons] at hn hlt ⊢; omega)
            (by simp [List.length_cons] at hk hlt ⊢; omega)]

/-- If the anchored attempt at the head of `R ++ T` captures exactly `R`,
the scan emits `R` and continues on `T` alone. -/
theorem pySub_cons_of_match {R T : List Char} (hR : R ≠ [])
    (h : tryMatchAt (R ++ T) = some (R, T)) : pySub (R ++ T) = R ++ pySub T := by
  obtain ⟨r0, R1, rfl⟩ := List.exists_cons_of_ne_nil hR
  rw [List.cons_append] at h
  rw [pySub, List.cons_append]
  show pySubFuel (Nat.succ (R1 ++ T).length) (r0 :: (R1 ++ T)) = _
  rw [pySubFuel, h]
  show (r0 :: R1) ++ pySubFuel (R1 ++ T).length T = (r0 :: R1) ++ pySub T
  rw [pySub,
    pySubFuel_congr (R1 ++ T).length T.length T (by simp [List.length_append])
      (le_refl _)]

/-- C6: re-processing a previously matched occurrence does not add a
duplicate break.  A matched occurrence was rewritten to
`replChars p conj m` — the punctuation, the optional conjunction, the
inserted newline, the computed indent, and the marker.  Running the
substitution scan over that replacement followed by any suffix that does
not begin with whitespace captures exactly the replacement again,
reproduces it verbatim, and continues on the suffix alone: no additional
line break is introduced at the marker position. -/
theorem claim_segment_reprocess (p : Char) (conj : Option (List Char))
    (m T : List Char) (hp : isPunctChar p = true)
    (hconj : ∀ w, conj = some w → w ∈ conjVariants)
    (hm : MarkerShape m) (hT : headNotSpace T = true) :
    pySub (replChars p conj m ++ T) = replChars p conj m ++ pySub T := by
  apply pySub_cons_of_match
  · cases conj <;> simp [replChars]
  · exact tryMatchAt_repl p conj m T hp hm hT hconj

/-- C6 witness: the occurrence ", or 1. " (comma, conjunction `or`,
level-0 marker `1.`) followed by `q`. -/
theorem claim_segment_reprocess_witness :
    pySub (replChars ',' (some ['o', 'r']) ['1', '.'] ++ ['q']) =
      replChars ',' (some ['o', 'r']) ['1', '.'] ++ pySub ['q'] :=
  claim_segment_reprocess ',' (some ['o', 'r']) ['1', '.'] ['q'] (by decide)
    (fun w hw => by cases hw; decide)
    (MarkerShape.digitsClose false ['1'] '.' (by decide) (by decide) (by decide))
    (by decide)

/-! ## `walk_documents`: flattening a law's document tree

A document node carries `docType`, `title` (with `None` already collapsed
to `""` by `doc.get("title") or ""`), `docLevelId`, `locationId`, and the
child list `doc["documents"]["items]"` in source order.  `walk_documents`
appends to `out_lines` in call order, which we model as the returned list.
-/

mutual
inductive DocNode : Type where
  | node (docType title docLevelId locationId : String) (items : DocForest)
inductive DocForest : Type where
  | nil : DocForest
  | cons (d : DocNode) (ds : DocForest) : DocForest
end

/-- `s.strip()` on `String`. -/
def pyStripS (s : String) : String := ⟨pyStripChars s.data⟩

/-- `s.strip(set)` on `String`. -/
def stripSetBothS (set : List Char) (s : String) : String :=
  ⟨stripSetBoth set s.data⟩

/-- `sep.join([p for p in parts if p])`. -/
def joinNonempty (sep : String) (parts : List String) : String :=
  String.intercalate sep (parts.filter (fun p => !p.isEmpty))

/-- The line built for a SECTION node: the label (`docType docLevelId`,
joined over the nonempty parts, stripped, with `" - "` appended when
nonempty), the path (`" / "` over the nonempty ancestors), assembled and
stripped of `" /"` at both ends. -/
def emitLine (docType title docLevelId locationId : String)
    (ancestors : List String) : String :=
  let label0 := pyStripS (joinNonempty " " [docType, docLevelId])
  let label := if label0.isEmpty then label0 else label0 ++ " - "
  let path := joinNonempty " / " ancestors
  stripSetBothS [' ', '/']
    (path ++ " :: " ++ label ++ title ++ " (locationId=" ++ locationId ++ ")")

mutual
def walk_documents : DocNode → List String → List String
  | DocNode.node docType title docLevelId locationId items, ancestors =>
    (if docType == "SECTION" then [emitLine docType title docLevelId locationId ancestors]
     else []) ++
      walkForest items (ancestors ++ [pyStripS (docType ++ " " ++ docLevelId)])
def walkForest : DocForest → List String → List String
  | DocForest.nil, _ => []
  | DocForest.cons d ds, ancestors =>
    walk_documents d ancestors ++ walkForest ds ancestors
end

/-- C3: flattening the two-level tree ARTICLE "2" → SECTION "100"
("Short title", locationId SEC100, no children) yields exactly the one
line of the claim. -/
theorem claim_flatten_concrete :
    walk_documents
      (DocNode.node "ARTICLE" "" "2" ""
        (DocForest.cons
          (DocNode.node "SECTION" "Short title" "100" "SEC100" DocForest.nil)
          DocForest.nil))
      [] = ["ARTICLE 2 :: SECTION 100 - Short title (locationId=SEC100)"] := by
  decide

/-! ### Spec-side formulation: depth-first pre-order, one line per SECTION -/

mutual
/-- Depth-first pre-order enumeration of a tree's nodes (fields paired
with the ancestor labels in effect at the visit), siblings in source
order, each node listed at the point of visiting it, before its
children. -/
def preorderNode : DocNode → List String →
    List (String × String × String × String × List String)
  | DocNode.node docType title docLevelId locationId items, ancestors =>
    (docType, title, docLevelId, locationId, ancestors) ::
      preorderForest items (ancestors ++ [pyStripS (docType ++ " " ++ docLevelId)])
def preorderForest : DocForest → List String →
    List (String × String × String × String × List String)
  | DocForest.nil, _ => []
  | DocForest.cons d ds, ancestors =>
    preorderNode d ancestors ++ preorderForest ds ancestors
end

/-- Emit a visited node's line exactly when it is a SECTION. -/
def emitIfSection (q : String × String × String × String × List String) :
    Option String :=
  if q.1 == "SECTION" then some (emitLine q.1 q.2.1 q.2.2.1 q.2.2.2.1 q.2.2.2.2)
  else none

mutual
theorem walk_documents_eq_pre (d : DocNode) (anc : List String) :
    walk_documents d anc = (preorderNode d anc).filterMap emitIfSection := by
  cases d with
  | node docType title docLevelId locationId items =>
    rw [walk_documents, preorderNode, List.filterMap_cons,
      walkForest_eq_pre items (anc ++ [pyStripS (docType ++ " " ++ docLevelId)])]
    have hemit : emitIfSection (docType, title, docLevelId, locationId, anc)
        = if docType == "SECTION" then
            some (emitLine docType title docLevelId locationId anc)
          else none := rfl
    rw [hemit]
    by_cases h : docType == "SECTION"
    · rw [if_pos h, if_pos h]
      rfl
    · rw [if_neg h, if_neg h]
      rfl
theorem walkForest_eq_pre (ds : DocForest) (anc : List String) :
    walkForest ds anc = (preorderForest ds anc).filterMap emitIfSection := by
  cases ds with
  | nil => rfl
  | cons d ds =>
    rw [walkForest, preorderForest, List.filterMap_append,
      walk_documents_eq_pre d anc, walkForest_eq_pre ds anc]
end

/-- C8: the flattened output is exactly one line per SECTION node, in
depth-first pre-order with siblings in source order; a SECTION node is
emitted exactly once, at the point of visiting it, even when it has
children (whose subtrees are still traversed with the extended ancestor
path). -/
theorem claim_preorder_sections (d : DocNode) (anc : List String) :
    walk_documents d anc = (preorderNode d anc).filterMap emitIfSection :=
  walk_documents_eq_pre d anc

/-! ### Trees with no SECTION node -/

mutual
/-- Does any node in the tree have `docType == "SECTION"`? -/
def hasSectionNode : DocNode → Bool
  | DocNode.node docType _ _ _ items =>
    (docType == "SECTION") || hasSectionForest items
def hasSectionForest : DocForest → Bool
  | DocForest.nil => false
  | DocForest.cons d ds => hasSectionNode d || hasSectionForest ds
end

mutual
theorem walk_nil_of_no_section (d : DocNode) (anc : List String)
    (h : hasSectionNode d = false) : walk_documents d anc = [] := by
  cases d with
  | node docType title docLevelId locationId items =>
    rw [hasSectionNode, Bool.or_eq_false_iff] at h
    rw [walk_documents, if_neg (by rw [h.1]; simp),
      walkForest_nil_of_no_section items _ h.2]
    rfl
theorem walkForest_nil_of_no_section (ds : DocForest) (anc : List String)
    (h : hasSectionForest ds = false) : walkForest ds anc = [] := by
  cases ds with
  | nil => rfl
  | cons d ds =>
    rw [hasSectionForest, Bool.or_eq_false_iff] at h
    rw [walkForest, walk_nil_of_no_section d anc h.1,
      walkForest_nil_of_no_section ds anc h.2]
    rfl
end

/-- C9: a tree containing no SECTION node anywhere flattens to the empty
sequence, for every ancestor context; the traversal is total, so this is
a normal outcome, not an error. -/
theorem claim_no_section_empty (d : DocNode) (anc : List String)
    (h : hasSectionNode d = false) : walk_documents d anc = [] :=
  walk_nil_of_no_section d anc h

/-- C9 witness: an ARTICLE with a single PART child, no SECTION. -/
theorem claim_no_section_empty_witness :
    hasSectionNode
      (DocNode.node "ARTICLE" "" "2" ""
        (DocForest.cons (DocNode.node "PART" "" "A" "" DocForest.nil)
          DocForest.nil)) = false ∧
    walk_documents
      (DocNode.node "ARTICLE" "" "2" ""
        (DocForest.cons (DocNode.node "PART" "" "A" "" DocForest.nil)
          DocForest.nil)) [] = [] :=
  ⟨by decide, claim_no_section_empty _ [] (by decide)⟩
